import Mathlib

/-!
Verification of the TOML serialization engine (`src/serialization.rs`):
the encoder's emission state machine, the decoder's consumption/leftover
state machine, the generic adapters derived for structured types, and the
error rendering.  Rust's `&mut self` methods are embedded as explicit
state-passing functions; `Result` becomes `Except`; the `HashMap`-backed
`Table` is embedded as an association list (the spec declares insertion
order irrelevant to the engine).
-/

set_option autoImplicit false

namespace Toml

/-- Stand-in alias so the `Value.String` constructor can declare a field of
the ambient string type without ambiguity. -/
abbrev Str := String

/-- Rust `f64` payloads, embedded as an opaque 64-bit word.  None of the
verified claims computes with floats: only the type tag of a `Float` value
and structural identity of its payload are ever inspected. -/
structure F64 where
  bits : UInt64
deriving DecidableEq, Repr

/-- Modelled from the spec: the crate-root `Value` tagged union
(`Table`, `Array`, `String`, `Integer`, `Float`, `Boolean`); the optional
`Datetime` variant is omitted as no claim mentions it.  `Table` is the
crate-root `type Table = HashMap<String, Value>`, embedded as an
association list. -/
inductive Value where
  | String (s : Str)
  | Integer (i : Int)
  | Float (f : F64)
  | Boolean (b : Bool)
  | Array (elems : List Value)
  | Table (entries : List (Str × Value))
deriving Repr

/-- The crate-root `Table` type: `HashMap<String, Value>` as an association
list. -/
abbrev Table := List (String × Value)

/-- Modelled from the spec: `Value::type_str`, the stable type-name accessor
used only for diagnostics (spec 4.1 lists the names). -/
def Value.type_str : Value → Str
  | .String _ => "string"
  | .Integer _ => "integer"
  | .Float _ => "float"
  | .Boolean _ => "boolean"
  | .Array _ => "array"
  | .Table _ => "table"

/-- Modelled from the spec: the crate-root `Value::as_integer` accessor used
by `read_seq` to detect the sentinel zero-integer placeholder. -/
def Value.as_integer : Value → Option Int
  | .Integer i => some i
  | _ => none

/-- `HashMap::insert`: replace the value at an existing key, else add the
entry (list position models iteration order, which the spec declares
irrelevant). -/
def tinsert : Table → String → Value → Table
  | [], k, v => [(k, v)]
  | (k', v') :: rest, k, v =>
    if k' = k then (k, v) :: rest else (k', v') :: tinsert rest k v

/-- `HashMap::pop`: remove the entry with the given key, returning the value
(if any) and the remaining table. -/
def tpop : Table → String → Option Value × Table
  | [], _ => (none, [])
  | (k', v') :: rest, k =>
    if k' = k then (some v', rest)
    else
      let (r, t) := tpop rest k
      (r, (k', v') :: t)

/-- `HashMap::find` (lookup without removal), used to state properties. -/
def tfind : Table → String → Option Value
  | [], _ => none
  | (k', v') :: rest, k => if k' = k then some v' else tfind rest k

/-- `str::replace(string, "_", "-")` specialised to the single-character
pattern used by the source. -/
def hyphenate (string : String) : String :=
  ⟨string.data.map (fun c => if c = '_' then '-' else c)⟩

/-- Enumeration of possible errors which can occur while decoding a
structure (`DecodeErrorKind` in the source). -/
inductive DecodeErrorKind where
  | ExpectedField (type_name : Str)
  | ExpectedType (expected : Str) (found : Str)
  | ExpectedMapKey (idx : Nat)
  | ExpectedMapElement (idx : Nat)
  | NoEnumVariants
  | NilTooLong
deriving DecidableEq, Repr

/-- Description for errors which can occur while decoding a type
(`DecodeError` in the source). -/
structure DecodeError where
  field : Option String
  kind : DecodeErrorKind
deriving DecidableEq, Repr

/-- A structure to transform TOML values into Rust values (`Decoder`): the
TOML value left over after decoding plus the dotted field path. -/
structure Decoder where
  toml : Option Value
  cur_field : Option String
deriving Repr

/-- `Decoder::new`: creates a new decoder, consuming the TOML value. -/
def Decoder.new (toml : Value) : Decoder :=
  { toml := some toml, cur_field := none }

/-- `Decoder::sub_decoder`. -/
def Decoder.sub_decoder (d : Decoder) (toml : Option Value) (field : Str) :
    Decoder :=
  { toml := toml
    cur_field :=
      if field.length = 0 then d.cur_field
      else
        match d.cur_field with
        | none => some field
        | some s => some (s ++ "." ++ field) }

/-- `Decoder::err`. -/
def Decoder.err (d : Decoder) (kind : DecodeErrorKind) : DecodeError :=
  { field := d.cur_field, kind := kind }

/-- `Decoder::mismatch`. -/
def Decoder.mismatch (d : Decoder) (expected : Str) (found : Option Value) :
    DecodeError :=
  match found with
  | some val => d.err (.ExpectedType expected val.type_str)
  | none => d.err (.ExpectedField expected)

/-- A `&mut self` decoder method returning `Result<A, DecodeError>`:
embedded as a state function that also yields the decoder state left behind
on the error path. -/
def DecM (α : Type) : Type := Decoder → Except DecodeError α × Decoder

instance : Monad DecM where
  pure a := fun d => (.ok a, d)
  bind m f := fun d =>
    match m d with
    | (.ok a, d') => f a d'
    | (.error e, d') => (.error e, d')

/-- `read_nil`. -/
def read_nil : DecM Unit := fun d =>
  match d.toml with
  | some (.String s) =>
    if s.length = 0 then (.ok (), { d with toml := none })
    else (.error (d.err .NilTooLong), d)
  | found => (.error (d.mismatch "string" found), d)

/-- `read_i64` (also the body of every integer-width wrapper). -/
def read_i64 : DecM Int := fun d =>
  match d.toml with
  | some (.Integer i) => (.ok i, { d with toml := none })
  | found => (.error (d.mismatch "integer" found), d)

/-- `read_bool`. -/
def read_bool : DecM Bool := fun d =>
  match d.toml with
  | some (.Boolean b) => (.ok b, { d with toml := none })
  | found => (.error (d.mismatch "bool" found), d)

/-- `read_f64`.  Note: the source returns the float without calling
`self.toml.take()`, unlike every other leaf read. -/
def read_f64 : DecM F64 := fun d =>
  match d.toml with
  | some (.Float f) => (.ok f, d)
  | found => (.error (d.mismatch "float" found), d)

/-- `read_char`: succeeds only on a one-character string, then clears the
slot. -/
def read_char : DecM Char := fun d =>
  match d.toml with
  | some (.String s) =>
    match s.toList with
    | [c] => (.ok c, { d with toml := none })
    | _ => (.error (d.mismatch "string" (some (.String s))), d)
  | found => (.error (d.mismatch "string" found), d)

/-- `read_str`: `self.toml.take()`, putting a non-string value back before
reporting the mismatch. -/
def read_str : DecM Str := fun d =>
  match d.toml with
  | some (.String s) => (.ok s, { d with toml := none })
  | found => (.error (d.mismatch "string" found), { d with toml := found })

/-- `read_enum`: the name is ignored, `f` runs on `self`. -/
def read_enum {α : Type} (_name : Str) (f : DecM α) : DecM α := f

/-- The `for i in range(0, names.len())` loop of `read_enum_variant`:
`i` is the next candidate index, `count` the number of candidates left,
`first_error` the error of the earliest failed attempt. -/
def read_enum_variant_loop {α : Type} (f : Nat → DecM α) :
    Nat → Nat → Option DecodeError → DecM α
  | _, 0, first_error => fun d =>
    (.error (first_error.getD (d.err .NoEnumVariants)), d)
  | i, count + 1, first_error => fun d =>
    match f i (d.sub_decoder d.toml "") with
    | (.ok t, d') => (.ok t, { d with toml := d'.toml })
    | (.error e, _) =>
      read_enum_variant_loop f (i + 1) count (some (first_error.getD e)) d

/-- `read_enum_variant`: tagged-union trial decoding. -/
def read_enum_variant {α : Type} (names : List Str) (f : Nat → DecM α) :
    DecM α :=
  read_enum_variant_loop f 0 names.length none

/-- `read_enum_variant_arg`: the index is ignored, `f` runs on `self`. -/
def read_enum_variant_arg {α : Type} (_a_idx : Nat) (f : DecM α) : DecM α := f

/-- `read_struct`: record decode; clears the slot only when the residual
table is empty. -/
def read_struct {α : Type} (_s_name : Str) (_len : Nat) (f : DecM α) :
    DecM α := fun d =>
  match d.toml with
  | some (.Table _) =>
    match f d with
    | (.ok ret, d') =>
      match d'.toml with
      | some (.Table t) =>
        if t.length = 0 then (.ok ret, { d' with toml := none })
        else (.ok ret, d')
      | _ => (.ok ret, d')
    | (.error e, d') => (.error e, d')
  | found => (.error (d.mismatch "table" found), d)

/-- `read_struct_field`: pop the field (falling back to the hyphenated
key), decode it in a sub-decoder, and re-insert any residue under the
original field name. -/
def read_struct_field {α : Type} (f_name : Str) (_f_idx : Nat) (f : DecM α) :
    DecM α := fun d =>
  match d.toml with
  | some (.Table table) =>
    let (popped, table1) :=
      match tpop table f_name with
      | (some v, t1) => (some v, t1)
      | (none, _) => tpop table (hyphenate f_name)
    let d0 : Decoder := { d with toml := some (.Table table1) }
    match f (d.sub_decoder popped f_name) with
    | (.ok ret, d') =>
      match d'.toml with
      | some value =>
        (.ok ret, { d0 with toml := some (.Table (tinsert table1 f_name value)) })
      | none => (.ok ret, d0)
    | (.error e, _) => (.error e, d0)
  | found => (.error (d.mismatch "table" found), d)

/-- `read_option`: passes presence of the held value to `f`. -/
def read_option {α : Type} (f : Bool → DecM α) : DecM α := fun d =>
  match d.toml with
  | some _ => f true d
  | none => f false d

/-- `read_seq`: sequence decode; after `f`, drops every sentinel
zero-integer slot and keeps any remaining elements as leftover. -/
def read_seq {α : Type} (f : Nat → DecM α) : DecM α := fun d =>
  match d.toml with
  | some (.Array arr) =>
    match f arr.length d with
    | (.ok ret, d') =>
      match d'.toml with
      | some (.Array arr2) =>
        let arr3 := arr2.filter (fun slot => slot.as_integer != some 0)
        if arr3.length ≠ 0 then (.ok ret, { d' with toml := some (.Array arr3) })
        else (.ok ret, { d' with toml := none })
      | _ => (.ok ret, d')
    | (.error e, d') => (.error e, d')
  | found => (.error (d.mismatch "array" found), d)

/-- `read_seq_elt`: swap the element at `idx` with the sentinel
`Integer(0)`, decode it in a sub-decoder, and write back its residue (if
any).  Rust's `arr.get_mut(idx)` panics when `idx` is out of bounds; the
model leaves the array unchanged in that (never exercised) case. -/
def read_seq_elt {α : Type} (idx : Nat) (f : DecM α) : DecM α := fun d =>
  match d.toml with
  | some (.Array arr) =>
    let old := arr.getD idx (.Integer 0)
    let d0 : Decoder := { d with toml := some (.Array (arr.set idx (.Integer 0))) }
    match f (d.sub_decoder (some old) "") with
    | (.ok ret, d') =>
      match d'.toml with
      | some residue =>
        match d0.toml with
        | some (.Array arr2) =>
          (.ok ret, { d0 with toml := some (.Array (arr2.set idx residue)) })
        | _ => (.ok ret, d0)
      | none => (.ok ret, d0)
    | (.error e, _) => (.error e, d0)
  | found => (.error (d.mismatch "array" found), d)

/-- `read_map`: dynamic-map decode; unconditionally clears the slot after
`f` succeeds. -/
def read_map {α : Type} (f : Nat → DecM α) : DecM α := fun d =>
  match d.toml with
  | some (.Table table) =>
    match f table.length d with
    | (.ok ret, d') => (.ok ret, { d' with toml := none })
    | (.error e, d') => (.error e, d')
  | found => (.error (d.mismatch "table" found), d)

/-- `read_map_elt_key`: positional key access; the sub-decoder is
temporary, `self` is unchanged. -/
def read_map_elt_key {α : Type} (idx : Nat) (f : DecM α) : DecM α := fun d =>
  match d.toml with
  | some (.Table table) =>
    match (table.map Prod.fst)[idx]? with
    | some key => ((f (d.sub_decoder (some (.String key)) key)).1, d)
    | none => (.error (d.err (.ExpectedMapKey idx)), d)
  | found => (.error (d.mismatch "table" found), d)

/-- `read_map_elt_val`: positional value access on a clone; the sub-decoder
is temporary, `self` is unchanged. -/
def read_map_elt_val {α : Type} (idx : Nat) (f : DecM α) : DecM α := fun d =>
  match d.toml with
  | some (.Table table) =>
    match (table.map Prod.snd)[idx]? with
    | some value => ((f (d.sub_decoder (some value) "")).1, d)
    | none => (.error (d.err (.ExpectedMapElement idx)), d)
  | found => (.error (d.mismatch "table" found), d)

/-- Enumeration of errors which can occur while encoding (`Error`). -/
inductive Error where
  | NeedsKey
  | NoValue
  | InvalidMapKeyLocation
  | InvalidMapKeyType
deriving DecidableEq, Repr

/-- Outcome of an encoder call that can also panic: Rust's `fail!` and
`unreachable!` escape the `Result`, so the embedded error type pairs the
source's `Error` enum with a panic marker. -/
inductive EncodeFailure where
  | err (e : Error)
  | panic
deriving DecidableEq, Repr

/-- The single-slot context state machine of the encoder
(`EncoderState`). -/
inductive EncoderState where
  | Start
  | NextKey (k : Str)
  | NextArray (vs : List Value)
  | NextMapKey
deriving Repr

/-- The only state comparison the source performs is
`self.state != Start` (via derived `PartialEq`); against the constant
`Start` that is a constructor-tag test. -/
def EncoderState.isStart : EncoderState → Bool
  | .Start => true
  | _ => false

/-- A structure to transform Rust values into TOML values (`Encoder`). -/
structure Encoder where
  toml : Table
  state : EncoderState
deriving Repr

/-- `Encoder::new`. -/
def Encoder.new : Encoder :=
  { state := .Start, toml := [] }

/-- A `&mut self` encoder method returning `Result<A, Error>`, with panics
folded into the failure type. -/
def EncM (α : Type) : Type := Encoder → Except EncodeFailure α × Encoder

instance : Monad EncM where
  pure a := fun e => (.ok a, e)
  bind m f := fun e =>
    match m e with
    | (.ok a, e') => f a e'
    | (.error err, e') => (.error err, e')

/-- `Encoder::emit_value`: routes a value into the active context after
`mem::replace(&mut self.state, Start)`. -/
def emit_value (v : Value) : EncM Unit := fun e =>
  match e.state with
  | .NextKey key => (.ok (), { toml := tinsert e.toml key v, state := .Start })
  | .NextArray vec => (.ok (), { e with state := .NextArray (vec ++ [v]) })
  | .NextMapKey =>
    match v with
    | .String s => (.ok (), { e with state := .NextKey s })
    | _ => (.error (.err .InvalidMapKeyType), { e with state := .Start })
  | .Start => (.error (.err .NeedsKey), { e with state := .Start })

/-- `emit_i64` (the funnel for every integer-width emit). -/
def emit_i64 (v : Int) : EncM Unit := emit_value (.Integer v)

/-- `emit_bool`. -/
def emit_bool (v : Bool) : EncM Unit := emit_value (.Boolean v)

/-- `emit_f64` (also reached by `emit_f32`). -/
def emit_f64 (v : F64) : EncM Unit := emit_value (.Float v)

/-- `emit_str` (also reached by `emit_char`). -/
def emit_str (v : Str) : EncM Unit := emit_value (.String v)

/-- `emit_struct`: nested records recurse through a fresh encoder; a
top-level record (state `Start`) runs directly on `self`. -/
def emit_struct (_name : Str) (_len : Nat) (f : EncM Unit) : EncM Unit :=
  fun e =>
  match e.state with
  | .NextKey key =>
    match f Encoder.new with
    | (.ok _, nested) =>
      (.ok (), { toml := tinsert e.toml key (.Table nested.toml), state := .Start })
    | (.error err, _) => (.error err, { e with state := .Start })
  | .NextArray arr =>
    match f Encoder.new with
    | (.ok _, nested) =>
      (.ok (), { toml := e.toml, state := .NextArray (arr ++ [.Table nested.toml]) })
    | (.error err, _) => (.error err, { e with state := .Start })
  | .Start => f { e with state := .Start }
  | .NextMapKey => (.error (.err .InvalidMapKeyLocation), { e with state := .Start })

/-- `emit_struct_field`: set `NextKey(name)`, run the body, require the
state to have returned to `Start`, then restore the prior context. -/
def emit_struct_field (f_name : Str) (_f_idx : Nat) (f : EncM Unit) :
    EncM Unit := fun e =>
  let old := e.state
  match f { e with state := .NextKey f_name } with
  | (.ok _, e') =>
    if e'.state.isStart then (.ok (), { e' with state := old })
    else (.error (.err .NoValue), e')
  | (.error err, e') => (.error err, e')

/-- `emit_seq`: swap in `NextArray([])`, run the body, restore the prior
context and route the accumulated array through `emit_value`. -/
def emit_seq (_len : Nat) (f : EncM Unit) : EncM Unit := fun e =>
  let old := e.state
  match f { e with state := .NextArray [] } with
  | (.ok _, e') =>
    match e'.state with
    | .NextArray v => emit_value (.Array v) { e' with state := old }
    | _ => (.error .panic, { e' with state := old })
  | (.error err, e') => (.error err, e')

/-- `emit_seq_elt`: the index is ignored, `f` runs on `self`. -/
def emit_seq_elt (_idx : Nat) (f : EncM Unit) : EncM Unit := f

/-- `emit_option`. -/
def emit_option (f : EncM Unit) : EncM Unit := f

/-- `emit_option_some`. -/
def emit_option_some (f : EncM Unit) : EncM Unit := f

/-- `emit_option_none`: under `NextKey` the field is simply omitted; inside
an array this is the fatal `fail!` contract violation. -/
def emit_option_none : EncM Unit := fun e =>
  match e.state with
  | .Start => (.error .panic, { e with state := .Start })
  | .NextKey _ => (.ok (), { e with state := .Start })
  | .NextArray _ => (.error .panic, { e with state := .Start })
  | .NextMapKey => (.error (.err .InvalidMapKeyLocation), { e with state := .Start })

/-- `emit_map`: identical machinery to `emit_struct`. -/
def emit_map (len : Nat) (f : EncM Unit) : EncM Unit :=
  emit_struct "foo" len f

/-- `emit_map_elt_key`: only valid in state `Start`; the body must leave a
pending `NextKey`. -/
def emit_map_elt_key (_idx : Nat) (f : EncM Unit) : EncM Unit := fun e =>
  match e.state with
  | .Start =>
    match f { e with state := .NextMapKey } with
    | (.ok _, e') =>
      match e'.state with
      | .NextKey _ => (.ok (), e')
      | _ => (.error (.err .InvalidMapKeyLocation), e')
    | (.error err, e') => (.error err, e')
  | _ => (.error (.err .InvalidMapKeyLocation), { e with state := .NextMapKey })

/-- `emit_map_elt_val`: `f` runs on `self`. -/
def emit_map_elt_val (_idx : Nat) (f : EncM Unit) : EncM Unit := f

/-- `emit_enum`. -/
def emit_enum (_name : Str) (f : EncM Unit) : EncM Unit := f

/-- `emit_enum_variant`: transparent, no discriminant is encoded. -/
def emit_enum_variant (_v_name : Str) (_v_id : Nat) (_len : Nat)
    (f : EncM Unit) : EncM Unit := f

/-- `emit_enum_variant_arg`. -/
def emit_enum_variant_arg (_a_idx : Nat) (f : EncM Unit) : EncM Unit := f

/-- The inner `humanize` helper of `impl fmt::Show for DecodeError`. -/
def humanize (s : String) : String :=
  if s = "section" then "a section"
  else "a value of type `" ++ s ++ "`"

/-- `impl fmt::Show for DecodeError`: renders the one-line message plus the
dotted path suffix. -/
def DecodeError.fmt (self : DecodeError) : String :=
  (match self.kind with
   | .ExpectedField expected_type =>
     if expected_type = "table" then "expected a section"
     else "expected a value of type `" ++ expected_type ++ "`"
   | .ExpectedType expected found =>
     "expected " ++ humanize expected ++ ", but found " ++ humanize found
   | .ExpectedMapKey idx =>
     "expected at least " ++ toString (idx + 1) ++ " keys"
   | .ExpectedMapElement idx =>
     "expected at least " ++ toString (idx + 1) ++ " elements"
   | .NoEnumVariants => "expected an enum variant to decode to"
   | .NilTooLong => "expected 0-length string") ++
  (match self.field with
   | some s => " for the key `" ++ s ++ "`"
   | none => "")

/-- The static shape of a structured type participating in the visitor
protocol: scalars, sequences, records (each field carries an
optional-presence flag, the position `Option` fields occupy in the
supported shapes), dynamic maps, and tagged unions. -/
inductive Shape where
  | sInt
  | sBool
  | sStr
  | sSeq (elem : Shape)
  | sRecord (fields : List (Str × Bool × Shape))
  | sMap (elem : Shape)
  | sUnion (variants : List Shape)
deriving Repr

/-- A value of some structured type: what an adapter-equipped Rust value
holds.  A record field is `none` exactly when an optional field is
absent. -/
inductive Data where
  | dInt (i : Int)
  | dBool (b : Bool)
  | dStr (s : Str)
  | dSeq (items : List Data)
  | dRecord (fields : List (Str × Option Data))
  | dMap (entries : List (Str × Data))
  | dUnion (tag : Nat) (payload : Data)
deriving Repr

mutual

/-- The TOML value a faithful encode of the data produces. -/
def toValue : Data → Value
  | .dInt i => .Integer i
  | .dBool b => .Boolean b
  | .dStr s => .String s
  | .dSeq items => .Array (toValueList items)
  | .dRecord fields => .Table (toValueFields fields)
  | .dMap entries => .Table (toValueEntries entries)
  | .dUnion _ p => toValue p

/-- Element-wise image of a sequence. -/
def toValueList : List Data → List Value
  | [] => []
  | x :: xs => toValue x :: toValueList xs

/-- Image of a record's fields; absent optional fields are omitted. -/
def toValueFields : List (Str × Option Data) → Table
  | [] => []
  | (_, none) :: xs => toValueFields xs
  | (n, some x) :: xs => (n, toValue x) :: toValueFields xs

/-- Image of a dynamic map's entries. -/
def toValueEntries : List (Str × Data) → Table
  | [] => []
  | (k, v) :: xs => (k, toValue v) :: toValueEntries xs

end

mutual

/-- The `Encodable` adapter the deriving macro produces, driving the
encoder's visitor protocol. -/
def encodeData : Data → EncM Unit
  | .dInt i => emit_i64 i
  | .dBool b => emit_bool b
  | .dStr s => emit_str s
  | .dSeq items => emit_seq items.length (encItems 0 items)
  | .dRecord fields => emit_struct "" fields.length (encFields 0 fields)
  | .dMap entries => emit_map entries.length (encEntries 0 entries)
  | .dUnion tag p =>
    emit_enum "" (emit_enum_variant "" tag 1
      (emit_enum_variant_arg 0 (encodeData p)))

/-- The per-element loop of a derived sequence encode. -/
def encItems : Nat → List Data → EncM Unit
  | _, [] => pure ()
  | i, x :: xs => do
    emit_seq_elt i (encodeData x)
    encItems (i + 1) xs

/-- The per-field loop of a derived record encode. -/
def encFields : Nat → List (Str × Option Data) → EncM Unit
  | _, [] => pure ()
  | i, (n, v) :: xs => do
    emit_struct_field n i (encFieldBody v)
    encFields (i + 1) xs

/-- A derived `Option` encode: `emit_option` dispatching on presence. -/
def encFieldBody : Option Data → EncM Unit
  | none => emit_option emit_option_none
  | some x => emit_option (emit_option_some (encodeData x))

/-- The per-entry loop of a derived dynamic-map encode. -/
def encEntries : Nat → List (Str × Data) → EncM Unit
  | _, [] => pure ()
  | i, (k, v) :: xs => do
    emit_map_elt_key i (emit_str k)
    emit_map_elt_val i (encodeData v)
    encEntries (i + 1) xs

end

mutual

/-- The `Decodable` adapter the deriving macro produces for a shape,
driving the decoder's visitor protocol. -/
def decodeShape : Shape → DecM Data
  | .sInt => do
    let i ← read_i64
    pure (.dInt i)
  | .sBool => do
    let b ← read_bool
    pure (.dBool b)
  | .sStr => do
    let s ← read_str
    pure (.dStr s)
  | .sSeq elem => do
    let items ← read_seq (fun len => decSeqItems elem 0 len)
    pure (.dSeq items)
  | .sRecord fields => do
    let fs ← read_struct "" fields.length (decFields fields 0)
    pure (.dRecord fs)
  | .sMap elem => do
    let es ← read_map (fun len => decMapItems elem 0 len)
    pure (.dMap es)
  | .sUnion variants =>
    read_enum "" (read_enum_variant (variants.map (fun _ => ""))
      (fun i => decArm variants i i))

/-- The `for i in 0..len` loop of a derived sequence decode. -/
def decSeqItems : Shape → Nat → Nat → DecM (List Data)
  | _, _, 0 => pure []
  | elem, idx, count + 1 => do
    let x ← read_seq_elt idx (decodeShape elem)
    let rest ← decSeqItems elem (idx + 1) count
    pure (x :: rest)

/-- The field-by-field body of a derived record decode. -/
def decFields : List (Str × Bool × Shape) → Nat → DecM (List (Str × Option Data))
  | [], _ => pure []
  | (n, opt, s) :: rest, i => do
    let v ← read_struct_field n i (decFieldBody opt s)
    let vs ← decFields rest (i + 1)
    pure ((n, v) :: vs)

/-- A required field decodes directly; an optional field goes through
`read_option`. -/
def decFieldBody : Bool → Shape → DecM (Option Data)
  | true, s =>
    read_option (fun b =>
      if b then do
        let x ← decodeShape s
        pure (some x)
      else pure none)
  | false, s => do
    let x ← decodeShape s
    pure (some x)

/-- The `for i in 0..len` loop of a derived dynamic-map decode; map keys
are strings, decoded with `read_str`. -/
def decMapItems : Shape → Nat → Nat → DecM (List (Str × Data))
  | _, _, 0 => pure []
  | elem, idx, count + 1 => do
    let k ← read_map_elt_key idx read_str
    let v ← read_map_elt_val idx (decodeShape elem)
    let rest ← decMapItems elem (idx + 1) count
    pure ((k, v) :: rest)

/-- The `match variant_index` arms of a derived tagged-union decode:
walks to the `i`-th variant shape, keeping the original index as the tag.
The empty case is unreachable (the loop is bounded by the variant
count). -/
def decArm : List Shape → Nat → Nat → DecM Data
  | [], _, _ => fun d => (.error (d.err .NoEnumVariants), d)
  | s :: _, tag, 0 => do
    let p ← read_enum_variant_arg 0 (decodeShape s)
    pure (.dUnion tag p)
  | _ :: rest, tag, i + 1 => decArm rest tag i

end

/-- `pub fn encode`: runs the adapter on a fresh encoder and wraps the
output table.  The source `unwrap`s, failing the task on error; the model
returns `none` there. -/
def encode (v : Data) : Option Value :=
  match encodeData v Encoder.new with
  | (.ok _, e) => some (.Table e.toml)
  | (.error _, _) => none

/-- `pub fn decode`: `Decodable::decode(&mut Decoder::new(toml)).ok()`. -/
def decode (s : Shape) (toml : Value) : Option Data :=
  match (decodeShape s (Decoder.new toml)).1 with
  | .ok t => some t
  | .error _ => none

/-- Success test on a `Result`. -/
def okB {ε α : Type} : Except ε α → Bool
  | .ok _ => true
  | .error _ => false

theorem okB_ok {ε α : Type} (a : α) : okB (ε := ε) (.ok a) = true := rfl

theorem okB_error {ε α : Type} (e : ε) : okB (α := α) (.error e) = false := rfl

/- ### Association-list (`HashMap`) helper lemmas -/

theorem tpop_fst_eq_tfind (t : Table) (k : String) : (tpop t k).1 = tfind t k := by
  induction t with
  | nil => rfl
  | cons p rest ih =>
    obtain ⟨k', v'⟩ := p
    by_cases h : k' = k <;> simp [tpop, tfind, h, ih]

theorem tpop_miss (t : Table) (k : String) (h : tfind t k = none) :
    tpop t k = (none, t) := by
  induction t with
  | nil => rfl
  | cons p rest ih =>
    obtain ⟨k', v'⟩ := p
    by_cases hk : k' = k
    · simp [tfind, hk] at h
    · simp [tfind, hk] at h
      simp [tpop, hk, ih h]

theorem tpop_hit_head (k : String) (v : Value) (rest : Table) :
    tpop ((k, v) :: rest) k = (some v, rest) := by
  simp [tpop]

theorem tfind_tinsert_self (t : Table) (k : String) (v : Value) :
    tfind (tinsert t k v) k = some v := by
  induction t with
  | nil => simp [tinsert, tfind]
  | cons p rest ih =>
    obtain ⟨k', v'⟩ := p
    by_cases h : k' = k <;> simp [tinsert, tfind, h, ih]

theorem tfind_tinsert_other (t : Table) (k k' : String) (v : Value)
    (h : k' ≠ k) : tfind (tinsert t k v) k' = tfind t k' := by
  induction t with
  | nil => simp [tinsert, tfind, Ne.symm h]
  | cons p rest ih =>
    obtain ⟨k0, v0⟩ := p
    by_cases h0 : k0 = k
    · subst h0
      simp [tinsert, tfind, Ne.symm h]
    · simp [tinsert, h0, tfind]
      by_cases h1 : k0 = k' <;> simp [h1, ih]

theorem tfind_eq_none_of_keys (t : Table) (k : String)
    (h : ∀ a ∈ t, a.1 ≠ k) : tfind t k = none := by
  induction t with
  | nil => rfl
  | cons p rest ih =>
    obtain ⟨k', v'⟩ := p
    simp [tfind, h (k', v') (by simp)]
    exact ih (fun a ha => h a (by simp [ha]))

theorem tfind_tpop_removed (t : Table) (k : String)
    (hd : t.Pairwise (fun a b => a.1 ≠ b.1)) :
    tfind (tpop t k).2 k = none := by
  induction t with
  | nil => rfl
  | cons p rest ih =>
    obtain ⟨k', v'⟩ := p
    rw [List.pairwise_cons] at hd
    by_cases h : k' = k
    · subst h
      rw [tpop_hit_head]
      exact tfind_eq_none_of_keys rest k' (fun a ha => Ne.symm (hd.1 a ha))
    · rcases hp : tpop rest k with ⟨r, t2⟩
      have hrec := ih hd.2
      rw [hp] at hrec
      simp [tpop, h, hp, tfind]
      exact hrec

/- ### Claim C2 -/

/-- C2: the claim that every successful leaf read clears the held slot is
right for `read_i64`, `read_bool`, `read_char`, `read_str` and `read_nil`,
but the code's `read_f64` (hence `read_f32`) returns `Ok` while leaving the
held `Float` in place: evaluated at a decoder holding `Float(x)`, the read
succeeds and the slot still holds `Float(x)`.  This contradicts the
decoder's own documentation that the leftover value records which fields
were *not* decoded.  The theorem also records that the sibling leaf reads
do clear the slot. -/
theorem read_f64_keeps_slot_other_leaf_reads_clear
    (x : F64) (i : Int) (b : Bool) (s c : String) (cf : Option String) :
    read_f64 { toml := some (.Float x), cur_field := cf } =
      (.ok x, { toml := some (.Float x), cur_field := cf }) ∧
    read_i64 { toml := some (.Integer i), cur_field := cf } =
      (.ok i, { toml := none, cur_field := cf }) ∧
    read_bool { toml := some (.Boolean b), cur_field := cf } =
      (.ok b, { toml := none, cur_field := cf }) ∧
    read_str { toml := some (.String s), cur_field := cf } =
      (.ok s, { toml := none, cur_field := cf }) ∧
    read_char { toml := some (.String ⟨[c.get 0]⟩), cur_field := cf } =
      (.ok (c.get 0), { toml := none, cur_field := cf }) ∧
    read_nil { toml := some (.String ""), cur_field := cf } =
      (.ok (), { toml := none, cur_field := cf }) := by
  refine ⟨rfl, rfl, rfl, rfl, rfl, rfl⟩

/- ### Claim C3 -/

/-- C3 counterexample: rendering `ExpectedType("table", "integer")` does
*not* begin with "expected a section" (its first 18 characters differ from
that 18-character string); it renders the table side as "a value of type
`table`" (the `humanize` helper special-cases the literal "section", which
is never a type name). -/
theorem expected_type_table_not_section :
    (DecodeError.mk none (.ExpectedType "table" "integer")).fmt =
      "expected a value of type `table`, but found a value of type `integer`" ∧
    (DecodeError.mk none
        (.ExpectedType "table" "integer")).fmt.toList.take 18 ≠
      "expected a section".toList := by
  refine ⟨rfl, by decide⟩

/-- C3 amended: in the `ExpectedType(e, f)` rendering a side is rendered as
"a section" only when it is the literal string "section" — which
`type_str` never produces — so `ExpectedType("table", f)` renders as
"expected a value of type `table`, but found ...".  Only the
`ExpectedField("table")` arm renders "expected a section". -/
theorem expected_type_humanize_spec (f : Str) :
    (DecodeError.mk none (.ExpectedType "table" f)).fmt =
      "expected a value of type `table`, but found " ++ humanize f ∧
    humanize "section" = "a section" ∧
    (∀ s : Str, s ≠ "section" → humanize s = "a value of type `" ++ s ++ "`") ∧
    (∀ v : Value, v.type_str ≠ "section") ∧
    (DecodeError.mk none (.ExpectedField "table")).fmt = "expected a section" := by
  refine ⟨?_, rfl, fun s hs => by simp [humanize, hs], fun v => ?_, rfl⟩
  · show "expected " ++ humanize "table" ++ ", but found " ++ humanize f ++ "" =
      "expected a value of type `table`, but found " ++ humanize f
    have h1 : ("expected " : String) ++ humanize "table" ++ ", but found " =
        "expected a value of type `table`, but found " := rfl
    rw [← h1]
    simp [String.append_assoc]
  · cases v <;> simp [Value.type_str]

/-- Closed instance discharging the hypotheses of
`expected_type_humanize_spec`. -/
theorem expected_type_humanize_spec_witness :
    (DecodeError.mk none (.ExpectedType "table" "integer")).fmt =
      "expected a value of type `table`, but found " ++ humanize "integer" ∧
    ("integer" : Str) ≠ "section" ∧
    humanize "integer" = "a value of type `integer`" := by
  have h := expected_type_humanize_spec "integer"
  exact ⟨h.1, by decide, h.2.2.1 "integer" (by decide)⟩

/- ### Claim C7 -/

/-- C7: `emit_value` routes a scalar by the current state: `NextKey(k)`
inserts and returns to `Start`; `NextArray` appends and stays in
`NextArray`; `NextMapKey` accepts only a string (becoming `NextKey`) and
fails with `InvalidMapKeyType` otherwise; `Start` fails with `NeedsKey`. -/
theorem emit_value_routing (v : Value) (t : Table) (k : Str)
    (acc : List Value) :
    emit_value v { toml := t, state := .NextKey k } =
      (.ok (), { toml := tinsert t k v, state := .Start }) ∧
    emit_value v { toml := t, state := .NextArray acc } =
      (.ok (), { toml := t, state := .NextArray (acc ++ [v]) }) ∧
    emit_value v { toml := t, state := .NextMapKey } =
      (match v with
       | .String s => (.ok (), { toml := t, state := .NextKey s })
       | _ => (.error (.err .InvalidMapKeyType), { toml := t, state := .Start })) ∧
    emit_value v { toml := t, state := .Start } =
      (.error (.err .NeedsKey), { toml := t, state := .Start }) := by
  refine ⟨rfl, rfl, ?_, rfl⟩
  cases v <;> rfl

/- ### Claim C9 -/

/-- C9: every leaf read that returns an error leaves the decoder's held
value unchanged (`read_str` puts the taken value back; the others build
their error before taking). -/
theorem leaf_reads_atomic_on_error (d : Decoder) :
    (okB (read_i64 d).1 = false → ((read_i64 d).2).toml = d.toml) ∧
    (okB (read_bool d).1 = false → ((read_bool d).2).toml = d.toml) ∧
    (okB (read_f64 d).1 = false → ((read_f64 d).2).toml = d.toml) ∧
    (okB (read_char d).1 = false → ((read_char d).2).toml = d.toml) ∧
    (okB (read_str d).1 = false → ((read_str d).2).toml = d.toml) ∧
    (okB (read_nil d).1 = false → ((read_nil d).2).toml = d.toml) := by
  obtain ⟨t, cf⟩ := d
  refine ⟨?_, ?_, ?_, ?_, ?_, ?_⟩ <;> intro h
  · cases t with
    | none => rfl
    | some v => cases v <;> first | rfl | simp [read_i64, okB] at h
  · cases t with
    | none => rfl
    | some v => cases v <;> first | rfl | simp [read_bool, okB] at h
  · cases t with
    | none => rfl
    | some v => cases v <;> rfl
  · cases t with
    | none => rfl
    | some v =>
      cases v with
      | String s =>
        rcases hs : s.data with _ | ⟨c, _ | ⟨c2, rest⟩⟩ <;>
          simp [read_char, String.toList, hs, okB] at h ⊢
      | _ => rfl
  · cases t with
    | none => rfl
    | some v => cases v <;> first | rfl | simp [read_str, okB] at h
  · cases t with
    | none => rfl
    | some v =>
      cases v with
      | String s =>
        by_cases hL : s.length = 0 <;> simp [read_nil, hL, okB] at h ⊢
      | _ => rfl

/-- Closed instance discharging the error hypotheses of
`leaf_reads_atomic_on_error` at a decoder holding a table (every leaf read
fails there). -/
theorem leaf_reads_atomic_on_error_witness :
    okB (read_i64 { toml := some (.Table []), cur_field := none }).1 = false ∧
    ((read_i64 { toml := some (.Table []), cur_field := none }).2).toml =
      some (.Table []) := by
  exact ⟨rfl, (leaf_reads_atomic_on_error
    { toml := some (.Table []), cur_field := none }).1 rfl⟩

/- ### Claim C8 -/

/- ### Claim C4 -/

theorem read_enum_variant_loop_fail {α : Type} (f : Nat → DecM α) :
    ∀ (count i : Nat) (e : DecodeError) (d : Decoder),
      (∀ j, j < count → okB ((f (i + j) (d.sub_decoder d.toml "")).1) = false) →
      read_enum_variant_loop f i count (some e) d = (.error e, d) := by
  intro count
  induction count with
  | zero => intro i e d _; rfl
  | succ c ih =>
    intro i e d hall
    rcases hfi : f i (d.sub_decoder d.toml "") with ⟨r, d2⟩
    cases r with
    | ok t =>
      have h0 := hall 0 (by omega)
      rw [show i + 0 = i from rfl, hfi] at h0
      simp [okB] at h0
    | error e2 =>
      rw [read_enum_variant_loop]
      simp only [hfi, Option.getD_some]
      exact ih (i + 1) e d (fun j hj => by
        have := hall (j + 1) (by omega)
        rwa [show i + (j + 1) = i + 1 + j by omega] at this)

theorem read_enum_variant_loop_succeed {α : Type} (f : Nat → DecM α) :
    ∀ (k count i : Nat) (fe : Option DecodeError) (d : Decoder) (t : α)
      (d2 : Decoder),
      k < count →
      (∀ j, j < k → okB ((f (i + j) (d.sub_decoder d.toml "")).1) = false) →
      f (i + k) (d.sub_decoder d.toml "") = (.ok t, d2) →
      read_enum_variant_loop f i count fe d = (.ok t, { d with toml := d2.toml }) := by
  intro k
  induction k with
  | zero =>
    intro count i fe d t d2 hc _ hok
    cases count with
    | zero => omega
    | succ c =>
      rw [show i + 0 = i from rfl] at hok
      rw [read_enum_variant_loop]
      simp only [hok]
  | succ k ih =>
    intro count i fe d t d2 hc hfail hok
    cases count with
    | zero => omega
    | succ c =>
      rcases hfi : f i (d.sub_decoder d.toml "") with ⟨r, d3⟩
      cases r with
      | ok t2 =>
        have h0 := hfail 0 (by omega)
        rw [show i + 0 = i from rfl, hfi] at h0
        simp [okB] at h0
      | error e2 =>
        rw [read_enum_variant_loop]
        simp only [hfi]
        exact ih c (i + 1) (some (fe.getD e2)) d t d2 (by omega)
          (fun j hj => by
            have := hfail (j + 1) (by omega)
            rwa [show i + (j + 1) = i + 1 + j by omega] at this)
          (by rwa [show i + (k + 1) = i + 1 + k by omega] at hok)

/-- C4: `read_enum_variant` tries the candidates in order against a clone
of the held value in a fresh sub-decoder; the first success wins, its
leftover replaces the held value, failed attempts leave the decoder
unchanged; if every candidate fails the error is the first candidate's,
and an empty candidate list gives `NoEnumVariants`. -/
theorem read_enum_variant_trial {α : Type} (names : List Str)
    (f : Nat → DecM α) (d : Decoder) :
    (names = [] →
      read_enum_variant names f d = (.error (d.err .NoEnumVariants), d)) ∧
    (∀ k t d2, k < names.length →
      (∀ j, j < k → okB ((f j (d.sub_decoder d.toml "")).1) = false) →
      f k (d.sub_decoder d.toml "") = (.ok t, d2) →
      read_enum_variant names f d = (.ok t, { d with toml := d2.toml })) ∧
    (∀ e, names ≠ [] →
      (∀ j, j < names.length → okB ((f j (d.sub_decoder d.toml "")).1) = false) →
      (f 0 (d.sub_decoder d.toml "")).1 = .error e →
      read_enum_variant names f d = (.error e, d)) := by
  refine ⟨?_, ?_, ?_⟩
  · intro h
    subst h
    rfl
  · intro k t d2 hk hfail hok
    unfold read_enum_variant
    exact read_enum_variant_loop_succeed f k names.length 0 none d t d2 hk
      (fun j hj => by simpa using hfail j hj) (by simpa using hok)
  · intro e hne hall hfirst
    unfold read_enum_variant
    cases names with
    | nil => exact absurd rfl hne
    | cons n rest =>
      rcases hf0 : f 0 (d.sub_decoder d.toml "") with ⟨r, d3⟩
      cases r with
      | ok t =>
        rw [hf0] at hfirst
        exact absurd hfirst (by simp)
      | error e2 =>
        rw [hf0] at hfirst
        have he : e2 = e := by injection hfirst
        rw [show (n :: rest).length = rest.length + 1 from rfl,
          read_enum_variant_loop]
        simp only [hf0, Option.getD_none, he]
        exact read_enum_variant_loop_fail f rest.length 1 e d (fun j hj => by
          have := hall (j + 1) (by simpa using hj)
          rwa [show (1 : Nat) + j = j + 1 by omega])

/-- Closed instance of `read_enum_variant_trial`: with candidates
`["A", "B"]`, a first candidate that fails (`read_bool` on an integer) and
a second that succeeds (`read_i64`), the trial returns the second
candidate's value and leftover. -/
theorem read_enum_variant_trial_witness :
    read_enum_variant ["A", "B"]
      (fun i => if i = 0 then (do
        let _ ← read_bool
        pure (0 : Int)) else read_i64)
      { toml := some (.Integer 7), cur_field := none } =
      (.ok 7, { toml := none, cur_field := none }) := by
  have h := (read_enum_variant_trial ["A", "B"]
    (fun i => if i = 0 then (do
      let _ ← read_bool
      pure (0 : Int)) else read_i64)
    { toml := some (.Integer 7), cur_field := none }).2.1
  exact h 1 7 { toml := none, cur_field := none } (by decide)
    (fun j hj => by
      have hj0 : j = 0 := by omega
      subst hj0
      rfl)
    rfl

/- ### Claim C5 -/

/-- C5: after a successful `read_map` the slot is unconditionally `None`
(even when the map body consumed nothing), whereas after a successful
`read_struct` the slot is `None` exactly when the residual table is empty
and otherwise keeps the nonempty residue. -/
theorem read_map_clears_read_struct_keeps {α : Type} (fm : Nat → DecM α)
    (fs : DecM α) (d : Decoder) (t : Table)
    (h : d.toml = some (.Table t)) :
    (∀ r d2, fm t.length d = (.ok r, d2) →
      read_map fm d = (.ok r, { d2 with toml := none })) ∧
    (∀ name len r d2, fs d = (.ok r, d2) → d2.toml = some (.Table []) →
      read_struct name len fs d = (.ok r, { d2 with toml := none })) ∧
    (∀ name len r d2 t2, fs d = (.ok r, d2) → d2.toml = some (.Table t2) →
      t2 ≠ [] → read_struct name len fs d = (.ok r, d2)) := by
  refine ⟨?_, ?_, ?_⟩
  · intro r d2 hfm
    simp only [read_map, h, hfm]
  · intro name len r d2 hfs hd2
    simp only [read_struct, h, hfs, hd2]
    simp
  · intro name len r d2 t2 hfs hd2 hne
    simp only [read_struct, h, hfs, hd2]
    simp [hne]

/-- Closed instance of `read_map_clears_read_struct_keeps`: a body that
consumes nothing still leaves `None` after `read_map`, while `read_struct`
keeps the untouched nonempty table and clears an empty one. -/
theorem read_map_clears_read_struct_keeps_witness :
    read_map (fun _ => (pure 0 : DecM Int))
      { toml := some (.Table [("a", .Integer 1)]), cur_field := none } =
      (.ok 0, { toml := none, cur_field := none }) ∧
    read_struct "S" 1 (pure 0 : DecM Int)
      { toml := some (.Table [("a", .Integer 1)]), cur_field := none } =
      (.ok 0, { toml := some (.Table [("a", .Integer 1)]), cur_field := none }) ∧
    read_struct "S" 0 (pure 0 : DecM Int)
      { toml := some (.Table []), cur_field := none } =
      (.ok 0, { toml := none, cur_field := none }) := by
  refine ⟨?_, ?_, ?_⟩
  · exact (read_map_clears_read_struct_keeps (fun _ => pure 0) (pure 0)
      _ [("a", .Integer 1)] rfl).1 0 _ rfl
  · exact (read_map_clears_read_struct_keeps (fun _ => pure 0) (pure 0)
      _ [("a", .Integer 1)] rfl).2.2 "S" 1 0 _ [("a", .Integer 1)] rfl rfl
      (by simp)
  · exact (read_map_clears_read_struct_keeps (fun _ => pure 0) (pure 0)
      _ [] rfl).2.1 "S" 0 0 _ rfl rfl

/- ### Claim C6 -/

/-- C6: `read_struct_field(name, body)` removes the entry keyed `name`
from the held table and hands it to the body's sub-decoder; when that key
is absent it retries with the key whose underscores are replaced by
hyphens, so an underscore-named field decodes successfully from a
hyphen-keyed table. -/
theorem read_struct_field_hyphen_fallback {α : Type} (f : DecM α)
    (name : Str) (idx : Nat) (t : Table) (cf : Option String) :
    (∀ v r d2, tfind t name = some v →
      f (Decoder.sub_decoder ⟨some (.Table t), cf⟩ (some v) name) = (.ok r, d2) →
      d2.toml = none →
      read_struct_field name idx f ⟨some (.Table t), cf⟩ =
        (.ok r, ⟨some (.Table (tpop t name).2), cf⟩)) ∧
    (∀ v r d2, tfind t name = none → tfind t (hyphenate name) = some v →
      f (Decoder.sub_decoder ⟨some (.Table t), cf⟩ (some v) name) = (.ok r, d2) →
      read_struct_field name idx f ⟨some (.Table t), cf⟩ =
        (.ok r, ⟨some (.Table
          (match d2.toml with
           | some res => tinsert (tpop t (hyphenate name)).2 name res
           | none => (tpop t (hyphenate name)).2)), cf⟩)) := by
  constructor
  · intro v r d2 hfind hf hd2
    have hfst := tpop_fst_eq_tfind t name
    rcases hp : tpop t name with ⟨pv, t1⟩
    rw [hp] at hfst
    simp only at hfst
    rw [hfind] at hfst
    subst hfst
    simp only [read_struct_field, hp, hf, hd2]
  · intro v r d2 hmiss hfind hf
    have hp1 := tpop_miss t name hmiss
    have hfst := tpop_fst_eq_tfind t (hyphenate name)
    rcases hp : tpop t (hyphenate name) with ⟨pv, t1⟩
    rw [hp] at hfst
    simp only at hfst
    rw [hfind] at hfst
    subst hfst
    simp only [read_struct_field, hp1, hp, hf]
    cases hv : d2.toml <;> simp [hv]

/-- Closed instance of `read_struct_field_hyphen_fallback`: the exact key
is removed and consumed; the field `a_b` decodes from the key `a-b`. -/
theorem read_struct_field_hyphen_fallback_witness :
    read_struct_field "a" 0 read_i64
      ⟨some (.Table [("a", .Integer 3)]), none⟩ =
      (.ok 3, ⟨some (.Table []), none⟩) ∧
    read_struct_field "a_b" 0 read_i64
      ⟨some (.Table [("a-b", .Integer 7)]), none⟩ =
      (.ok 7, ⟨some (.Table []), none⟩) := by
  constructor
  · exact (read_struct_field_hyphen_fallback read_i64 "a" 0
      [("a", .Integer 3)] none).1 (.Integer 3) 3
      ⟨none, some "a"⟩ rfl rfl rfl
  · exact (read_struct_field_hyphen_fallback read_i64 "a_b" 0
      [("a-b", .Integer 7)] none).2 (.Integer 7) 7
      ⟨none, some "a_b"⟩ rfl rfl rfl

/- ### Claim C10 -/

/-- C10: when the field is found only under its hyphenated key and the
sub-decode leaves a nonempty residue, the residue is re-inserted under the
original underscore-spelled field name: the leftover table answers lookups
at `name`, not at `hyphenate name`. -/
theorem residue_reinserted_under_original_name {α : Type} (f : DecM α)
    (name : Str) (idx : Nat) (t : Table) (cf : Option String)
    (v res : Value) (r : α) (d2 : Decoder)
    (hdist : t.Pairwise (fun a b => a.1 ≠ b.1))
    (hne : name ≠ hyphenate name)
    (h1 : tfind t name = none)
    (h2 : tfind t (hyphenate name) = some v)
    (h3 : f (Decoder.sub_decoder ⟨some (.Table t), cf⟩ (some v) name) = (.ok r, d2))
    (h4 : d2.toml = some res) :
    ∃ t2, read_struct_field name idx f ⟨some (.Table t), cf⟩ =
        (.ok r, ⟨some (.Table t2), cf⟩) ∧
      tfind t2 name = some res ∧ tfind t2 (hyphenate name) = none := by
  have hp1 := tpop_miss t name h1
  have hfst := tpop_fst_eq_tfind t (hyphenate name)
  rcases hp : tpop t (hyphenate name) with ⟨pv, t1⟩
  rw [hp] at hfst
  simp only at hfst
  rw [h2] at hfst
  subst hfst
  refine ⟨tinsert t1 name res, ?_, ?_, ?_⟩
  · simp only [read_struct_field, hp1, hp, h3, h4]
  · exact tfind_tinsert_self t1 name res
  · rw [tfind_tinsert_other t1 name (hyphenate name) res (Ne.symm hne)]
    have := tfind_tpop_removed t (hyphenate name) hdist
    rw [hp] at this
    exact this

/-- Closed instance of `residue_reinserted_under_original_name`: decoding
field `a_b` (a record consuming only `x`) from key `a-b` leaves the
residue `{y: 2}` under the key `a_b`. -/
theorem residue_reinserted_under_original_name_witness :
    ∃ t2, read_struct_field "a_b" 0
        (read_struct "B" 1 (read_struct_field "x" 0 read_i64))
        ⟨some (.Table [("a-b", .Table [("x", .Integer 1), ("y", .Integer 2)])]),
          none⟩ =
        (.ok 1, ⟨some (.Table t2), none⟩) ∧
      tfind t2 "a_b" = some (.Table [("y", .Integer 2)]) ∧
      tfind t2 (hyphenate "a_b") = none := by
  exact residue_reinserted_under_original_name
    (read_struct "B" 1 (read_struct_field "x" 0 read_i64)) "a_b" 0
    [("a-b", .Table [("x", .Integer 1), ("y", .Integer 2)])] none
    (.Table [("x", .Integer 1), ("y", .Integer 2)])
    (.Table [("y", .Integer 2)]) 1
    ⟨some (.Table [("y", .Integer 2)]), some "a_b"⟩
    (by simp) (by decide) rfl rfl rfl rfl

/- ### Claim C8 -/

/-- The adapter `deriving(Decodable)` produces for
`struct Foo { bar: int }`. -/
def decodeFooBar : DecM Int :=
  read_struct "Foo" 1 (read_struct_field "bar" 0 read_i64)

/-- C8: decoding `{bar: Float(_)}` into `{bar: int}` fails with exactly
"expected a value of type `integer`, but found a value of type `float`
for the key `bar`", and decoding `{}` into it fails with exactly
"expected a value of type `integer` for the key `bar`". -/
theorem foo_bar_error_messages (x : F64) :
    (decodeFooBar (Decoder.new (.Table [("bar", .Float x)]))).1 =
      .error { field := some "bar", kind := .ExpectedType "integer" "float" } ∧
    (DecodeError.mk (some "bar") (.ExpectedType "integer" "float")).fmt =
      "expected a value of type `integer`, but found a value of type `float` for the key `bar`" ∧
    (decodeFooBar (Decoder.new (.Table []))).1 =
      .error { field := some "bar", kind := .ExpectedField "integer" } ∧
    (DecodeError.mk (some "bar") (.ExpectedField "integer")).fmt =
      "expected a value of type `integer` for the key `bar`" := by
  refine ⟨rfl, rfl, rfl, rfl⟩

/- ### Claim C1: round-trip -/

theorem decm_bind_apply {α β : Type} (m : DecM α) (f : α → DecM β) (d : Decoder) :
    (m >>= f) d =
      match m d with
      | (.ok a, d') => f a d'
      | (.error e, d') => (.error e, d') := rfl

theorem decm_pure_apply {α : Type} (a : α) (d : Decoder) :
    (pure a : DecM α) d = (.ok a, d) := rfl

theorem encm_bind_apply {α β : Type} (m : EncM α) (f : α → EncM β) (e : Encoder) :
    (m >>= f) e =
      match m e with
      | (.ok a, e') => f a e'
      | (.error err, e') => (.error err, e') := rfl

theorem encm_pure_apply {α : Type} (a : α) (e : Encoder) :
    (pure a : EncM α) e = (.ok a, e) := rfl

mutual

/-- The adapter-constructible values over supported shapes: `Fits v s`
says `v` is a value of the structured type `s`.  Record field names are
Rust identifiers (hyphen-free) and pairwise distinct; map keys are
`HashMap` keys (pairwise distinct); a tagged-union value carries the
variant it was built from, and — the condition trial decoding imposes —
every variant listed before it must fail to decode the value's encoded
payload. -/
def Fits : Data → Shape → Prop
  | .dInt _, .sInt => True
  | .dBool _, .sBool => True
  | .dStr _, .sStr => True
  | .dSeq items, .sSeq elem => FitsList items elem
  | .dRecord dfs, .sRecord sfs =>
    (∀ p ∈ sfs, '-' ∉ p.1.data) ∧
    sfs.Pairwise (fun a b => a.1 ≠ b.1) ∧
    FitsFields dfs sfs
  | .dMap entries, .sMap elem =>
    entries.Pairwise (fun a b => a.1 ≠ b.1) ∧ FitsEntries entries elem
  | .dUnion tag p, .sUnion variants =>
    FitsAt p variants tag ∧
    (∀ j sj, j < tag → variants[j]? = some sj →
      ∀ cf, okB ((decodeShape sj ⟨some (toValue p), cf⟩).1) = false)
  | _, _ => False

/-- The payload fits the shape at the given variant index. -/
def FitsAt : Data → List Shape → Nat → Prop
  | p, s :: _, 0 => Fits p s
  | p, _ :: rest, n + 1 => FitsAt p rest n
  | _, [], _ => False

/-- Every sequence element fits the element shape. -/
def FitsList : List Data → Shape → Prop
  | [], _ => True
  | x :: xs, elem => Fits x elem ∧ FitsList xs elem

/-- Data fields match shape fields pointwise: same names in the same
order, absent values only at optional fields. -/
def FitsFields : List (Str × Option Data) → List (Str × Bool × Shape) → Prop
  | [], [] => True
  | (n, some x) :: dfs, (m, _, s) :: sfs => n = m ∧ Fits x s ∧ FitsFields dfs sfs
  | (n, none) :: dfs, (m, opt, _) :: sfs => n = m ∧ opt = true ∧ FitsFields dfs sfs
  | _, _ => False

/-- Every map entry's value fits the element shape. -/
def FitsEntries : List (Str × Data) → Shape → Prop
  | [], _ => True
  | (_, v) :: xs, elem => Fits v elem ∧ FitsEntries xs elem

end

/-- C1 counterexample: the adapter-constructible value
`Foo { a: B(5) }` over `enum E { A(i64), B(i64) }` — a tagged union where
*both* variants decode successfully — encodes to `{a: Integer(5)}`, but
trial decoding picks the first variant, yielding `Foo { a: A(5) } ≠ v`. -/
theorem roundtrip_counterexample :
    encode (.dRecord [("a", some (.dUnion 1 (.dInt 5)))]) =
      some (.Table [("a", .Integer 5)]) ∧
    decode (.sRecord [("a", false, .sUnion [.sInt, .sInt])])
        (.Table [("a", .Integer 5)]) =
      some (.dRecord [("a", some (.dUnion 0 (.dInt 5)))]) ∧
    Data.dUnion 0 (.dInt 5) ≠ Data.dUnion 1 (.dInt 5) := by
  refine ⟨?_, ?_, by simp⟩
  · simp [encode, encodeData, encFields, encFieldBody, Encoder.new,
      emit_struct, emit_struct_field, emit_enum, emit_enum_variant,
      emit_enum_variant_arg, emit_option, emit_option_some, emit_i64,
      emit_value, EncoderState.isStart, tinsert, encm_bind_apply, encm_pure_apply]
  · simp [decode, decodeShape, decFields, decFieldBody, decArm,
      Decoder.new, Decoder.sub_decoder, read_struct, read_struct_field,
      read_enum, read_enum_variant, read_enum_variant_loop,
      read_enum_variant_arg, read_i64, tpop, hyphenate,
      decm_bind_apply, decm_pure_apply]

/- #### Table and value-image lemmas for the round-trip proof -/

/-- Sequential `HashMap::insert` of a list of entries. -/
def tinsertAll (t : Table) (kvs : Table) : Table :=
  kvs.foldl (fun acc kv => tinsert acc kv.1 kv.2) t

theorem tinsert_fresh_append (t : Table) (k : String) (v : Value)
    (h : tfind t k = none) : tinsert t k v = t ++ [(k, v)] := by
  induction t with
  | nil => rfl
  | cons p rest ih =>
    obtain ⟨k', v'⟩ := p
    by_cases hk : k' = k
    · simp [tfind, hk] at h
    · simp [tfind, hk] at h
      simp [tinsert, hk, ih h]

theorem tfind_append_none (t1 t2 : Table) (k : String)
    (h1 : tfind t1 k = none) : tfind (t1 ++ t2) k = tfind t2 k := by
  induction t1 with
  | nil => rfl
  | cons p rest ih =>
    obtain ⟨k', v'⟩ := p
    by_cases hk : k' = k
    · simp [tfind, hk] at h1
    · simp [tfind, hk] at h1 ⊢
      exact ih h1

theorem tinsertAll_fresh :
    ∀ (kvs t : Table), (∀ kv ∈ kvs, tfind t kv.1 = none) →
      kvs.Pairwise (fun a b => a.1 ≠ b.1) → tinsertAll t kvs = t ++ kvs := by
  intro kvs
  induction kvs with
  | nil => intro t _ _; simp [tinsertAll]
  | cons kv rest ih =>
    intro t hfresh hpw
    obtain ⟨k, v⟩ := kv
    rw [List.pairwise_cons] at hpw
    have h1 : tinsert t k v = t ++ [(k, v)] :=
      tinsert_fresh_append t k v (hfresh (k, v) (by simp))
    have h2 : tinsertAll (tinsert t k v) rest = (t ++ [(k, v)]) ++ rest := by
      rw [h1]
      refine ih (t ++ [(k, v)]) ?_ hpw.2
      intro kv2 hkv2
      rw [tfind_append_none t [(k, v)] kv2.1 (hfresh kv2 (by simp [hkv2]))]
      simp [tfind, hpw.1 kv2 hkv2]
    calc tinsertAll t ((k, v) :: rest) = tinsertAll (tinsert t k v) rest := rfl
      _ = (t ++ [(k, v)]) ++ rest := h2
      _ = t ++ ((k, v) :: rest) := by simp

theorem tinsertAll_nil_of_pairwise (kvs : Table)
    (hpw : kvs.Pairwise (fun a b => a.1 ≠ b.1)) : tinsertAll [] kvs = kvs := by
  have := tinsertAll_fresh kvs [] (fun kv _ => rfl) hpw
  simpa using this

theorem pairwise_keys_of_sublist (t1 t2 : Table)
    (hs : (t1.map Prod.fst).Sublist (t2.map Prod.fst))
    (h : t2.Pairwise (fun a b => a.1 ≠ b.1)) :
    t1.Pairwise (fun a b => a.1 ≠ b.1) := by
  rw [← List.pairwise_map (f := Prod.fst)] at h ⊢
  exact h.sublist hs

theorem hyphenate_cases (n : Str) :
    hyphenate n = n ∨ '-' ∈ (hyphenate n).data := by
  by_cases h : '_' ∈ n.data
  · right
    have : (if ('_' : Char) = '_' then '-' else '_') ∈
        n.data.map (fun c => if c = '_' then '-' else c) :=
      List.mem_map_of_mem _ h
    simpa [hyphenate] using this
  · left
    show String.mk (n.data.map (fun c => if c = '_' then '-' else c)) = n
    have hmap : ∀ l : List Char, '_' ∉ l →
        l.map (fun c => if c = '_' then '-' else c) = l := by
      intro l hl
      induction l with
      | nil => rfl
      | cons c cs ih =>
        have hc : c ≠ '_' := fun hh => hl (by simp [hh])
        simp [hc]
        exact ih (fun hh => hl (by simp [hh]))
    rw [hmap n.data h]

theorem tfind_none_of_hyphen_key (t : Table) (k : Str)
    (hk : '-' ∈ k.data) (ht : ∀ a ∈ t, '-' ∉ a.1.data) :
    tfind t k = none := by
  refine tfind_eq_none_of_keys t k (fun a ha heq => ht a ha ?_)
  rw [heq]
  exact hk

/-- The value image of a sequence has the sequence's length. -/
theorem toValueList_length (l : List Data) :
    (toValueList l).length = l.length := by
  induction l with
  | nil => rfl
  | cons x xs ih => simp [toValueList, ih]

theorem toValueEntries_map_fst (es : List (Str × Data)) :
    (toValueEntries es).map Prod.fst = es.map Prod.fst := by
  induction es with
  | nil => rfl
  | cons p rest ih =>
    obtain ⟨k, v⟩ := p
    simp [toValueEntries, ih]

theorem toValueEntries_map_snd (es : List (Str × Data)) :
    (toValueEntries es).map Prod.snd = es.map (fun p => toValue p.2) := by
  induction es with
  | nil => rfl
  | cons p rest ih =>
    obtain ⟨k, v⟩ := p
    simp [toValueEntries, ih]

theorem toValueEntries_length (es : List (Str × Data)) :
    (toValueEntries es).length = es.length := by
  induction es with
  | nil => rfl
  | cons p rest ih =>
    obtain ⟨k, v⟩ := p
    simp [toValueEntries, ih]

theorem toValueEntries_append (a b : List (Str × Data)) :
    toValueEntries (a ++ b) = toValueEntries a ++ toValueEntries b := by
  induction a with
  | nil => rfl
  | cons p rest ih =>
    obtain ⟨k, v⟩ := p
    simp [toValueEntries, ih]

theorem FitsFields_names :
    ∀ (dfs : List (Str × Option Data)) (sfs : List (Str × Bool × Shape)),
      FitsFields dfs sfs → dfs.map Prod.fst = sfs.map (fun p => p.1) := by
  intro dfs
  induction dfs with
  | nil =>
    intro sfs h
    cases sfs with
    | nil => rfl
    | cons q sr => simp [FitsFields] at h
  | cons p rest ih =>
    intro sfs h
    obtain ⟨n, ov⟩ := p
    cases sfs with
    | nil => cases ov <;> simp [FitsFields] at h
    | cons q sr =>
      obtain ⟨m, opt, s⟩ := q
      cases ov with
      | some x =>
        rw [FitsFields] at h
        simp [h.1, ih sr h.2.2]
      | none =>
        rw [FitsFields] at h
        simp [h.1, ih sr h.2.2]

theorem toValueFields_keys_sublist (dfs : List (Str × Option Data)) :
    ((toValueFields dfs).map Prod.fst).Sublist (dfs.map Prod.fst) := by
  induction dfs with
  | nil => simp [toValueFields]
  | cons p rest ih =>
    obtain ⟨n, ov⟩ := p
    cases ov with
    | none =>
      rw [toValueFields]
      exact ih.trans (List.sublist_cons_self _ _)
    | some x =>
      rw [toValueFields]
      simpa using ih.cons₂ n

theorem tfind_toValueFields_none (dfs : List (Str × Option Data)) (k : String)
    (h : ∀ n ∈ dfs.map Prod.fst, n ≠ k) :
    tfind (toValueFields dfs) k = none := by
  refine tfind_eq_none_of_keys _ k (fun a ha => ?_)
  have : a.1 ∈ (toValueFields dfs).map Prod.fst := List.mem_map_of_mem _ ha
  exact h a.1 ((toValueFields_keys_sublist dfs).subset this)

theorem toValueFields_keys_hyphen_free (dfs : List (Str × Option Data))
    (sfs : List (Str × Bool × Shape)) (hff : FitsFields dfs sfs)
    (h : ∀ p ∈ sfs, '-' ∉ p.1.data) :
    ∀ a ∈ toValueFields dfs, '-' ∉ a.1.data := by
  intro a ha
  have h1 : a.1 ∈ (toValueFields dfs).map Prod.fst := List.mem_map_of_mem _ ha
  have h2 : a.1 ∈ dfs.map Prod.fst := (toValueFields_keys_sublist dfs).subset h1
  rw [FitsFields_names dfs sfs hff] at h2
  obtain ⟨p, hp, hpe⟩ := List.mem_map.mp h2
  intro hcontra
  exact h p hp (hpe ▸ hcontra)

theorem toValueFields_keys_pairwise (dfs : List (Str × Option Data))
    (sfs : List (Str × Bool × Shape)) (hff : FitsFields dfs sfs)
    (hd : sfs.Pairwise (fun a b => a.1 ≠ b.1)) :
    (toValueFields dfs).Pairwise (fun a b => a.1 ≠ b.1) := by
  have h1 : (sfs.map (fun p => p.1)).Pairwise (fun a b => a ≠ b) :=
    List.pairwise_map.mpr hd
  have h2 : (dfs.map Prod.fst).Pairwise (fun a b => a ≠ b) := by
    rw [FitsFields_names dfs sfs hff]
    exact h1
  have h3 := h2.sublist (toValueFields_keys_sublist dfs)
  exact List.pairwise_map.mp h3

theorem set_at_append_length {α : Type} :
    ∀ (l1 : List α) (x : α) (t : List α) (y : α),
      (l1 ++ x :: t).set l1.length y = l1 ++ y :: t := by
  intro l1
  induction l1 with
  | nil => intro x t y; rfl
  | cons a rest ih => intro x t y; simp [List.set, ih]

theorem getD_at_append_length {α : Type} :
    ∀ (l1 : List α) (x : α) (t : List α) (d : α),
      (l1 ++ x :: t).getD l1.length d = x := by
  intro l1
  induction l1 with
  | nil => intro x t d; rfl
  | cons a rest ih => intro x t d; simpa using ih x t d

theorem getElem?_at_append_length {α : Type} :
    ∀ (l1 : List α) (x : α) (t : List α), (l1 ++ x :: t)[l1.length]? = some x := by
  intro l1
  induction l1 with
  | nil => intro x t; simp
  | cons a rest ih => intro x t; simpa using ih x t

theorem filter_sentinel (n : Nat) :
    (List.replicate n (Value.Integer 0)).filter
      (fun slot => slot.as_integer != some 0) = [] := by
  induction n with
  | zero => rfl
  | succ m ih => simp [List.replicate_succ, List.filter, Value.as_integer, ih]

theorem FitsList_mem :
    ∀ (items : List Data) (elem : Shape) (x : Data),
      FitsList items elem → x ∈ items → Fits x elem := by
  intro items
  induction items with
  | nil => intro elem x _ hx; simp at hx
  | cons a rest ih =>
    intro elem x h hx
    rw [FitsList] at h
    rcases List.mem_cons.mp hx with hx1 | hx1
    · exact hx1 ▸ h.1
    · exact ih elem x h.2 hx1

theorem FitsEntries_mem :
    ∀ (entries : List (Str × Data)) (elem : Shape) (p : Str × Data),
      FitsEntries entries elem → p ∈ entries → Fits p.2 elem := by
  intro entries
  induction entries with
  | nil => intro elem p _ hp; simp at hp
  | cons a rest ih =>
    intro elem p h hp
    obtain ⟨k, v⟩ := a
    rw [FitsEntries] at h
    rcases List.mem_cons.mp hp with hp1 | hp1
    · exact hp1 ▸ h.1
    · exact ih elem p h.2 hp1

theorem FitsAt_elim :
    ∀ (variants : List Shape) (tag : Nat) (p : Data),
      FitsAt p variants tag → ∃ s, variants[tag]? = some s ∧ Fits p s := by
  intro variants
  induction variants with
  | nil =>
    intro tag p h
    cases tag <;> simp [FitsAt] at h
  | cons s rest ih =>
    intro tag p h
    cases tag with
    | zero =>
      rw [FitsAt] at h
      exact ⟨s, by simp, h⟩
    | succ n =>
      rw [FitsAt] at h
      obtain ⟨s2, hget, hf⟩ := ih n p h
      exact ⟨s2, by simpa using hget, hf⟩

theorem okB_bind_false {α β : Type} (m : DecM α) (g : α → DecM β)
    (d : Decoder) (h : okB ((m d).1) = false) :
    okB (((m >>= g) d).1) = false := by
  rcases hm : m d with ⟨r, d'⟩
  cases r with
  | ok a => rw [hm] at h; simp [okB] at h
  | error e => simp [decm_bind_apply, hm, okB]

theorem FitsFields_mem_present :
    ∀ (dfs : List (Str × Option Data)) (sfs : List (Str × Bool × Shape))
      (n : Str) (x : Data),
      FitsFields dfs sfs → (n, some x) ∈ dfs → ∃ s, Fits x s := by
  intro dfs
  induction dfs with
  | nil => intro sfs n x _ hm; simp at hm
  | cons p rest ih =>
    intro sfs n x hff hm
    obtain ⟨m, ov⟩ := p
    cases sfs with
    | nil => cases ov <;> simp [FitsFields] at hff
    | cons q sr =>
      obtain ⟨m2, opt, s2⟩ := q
      rcases List.mem_cons.mp hm with hm1 | hm1
      · cases ov with
        | some y =>
          rw [FitsFields] at hff
          have hx : x = y := by
            have := congrArg Prod.snd hm1
            simpa using this
          exact ⟨s2, hx ▸ hff.2.1⟩
        | none =>
          have := congrArg Prod.snd hm1
          simp at this
      · cases ov with
        | some y =>
          rw [FitsFields] at hff
          exact ih sr n x hff.2.2 hm1
        | none =>
          rw [FitsFields] at hff
          exact ih sr n x hff.2.2 hm1

/- #### Encoder correctness on adapter-constructible values -/

/-- A pending-value context: the encoder states under which the generic
adapter emits a (possibly compound) value. -/
def inValueCtx : EncoderState → Prop
  | .NextKey _ => True
  | .NextArray _ => True
  | _ => False

theorem encFields_run :
    ∀ (dfs : List (Str × Option Data)),
      (∀ n x, (n, some x) ∈ dfs → ∀ e : Encoder, inValueCtx e.state →
        encodeData x e = emit_value (toValue x) e) →
      ∀ (i : Nat) (t : Table),
        encFields i dfs ⟨t, .Start⟩ =
          (.ok (), ⟨tinsertAll t (toValueFields dfs), .Start⟩) := by
  intro dfs
  induction dfs with
  | nil =>
    intro _ i t
    simp [encFields, tinsertAll, encm_pure_apply, toValueFields]
  | cons p rest ih =>
    intro hIH i t
    obtain ⟨n, ov⟩ := p
    cases ov with
    | some x =>
      have hx := hIH n x (by simp) ⟨t, .NextKey n⟩ (by simp [inValueCtx])
      have hbody : encFieldBody (some x) ⟨t, .NextKey n⟩ =
          (.ok (), ⟨tinsert t n (toValue x), .Start⟩) := by
        rw [encFieldBody]
        show encodeData x ⟨t, .NextKey n⟩ = _
        rw [hx]
        rfl
      have hfield : emit_struct_field n i (encFieldBody (some x)) ⟨t, .Start⟩ =
          (.ok (), ⟨tinsert t n (toValue x), .Start⟩) := by
        simp only [emit_struct_field, hbody]
        rfl
      rw [encFields, encm_bind_apply, hfield]
      show encFields (i + 1) rest ⟨tinsert t n (toValue x), .Start⟩ = _
      rw [ih (fun n2 x2 hm => hIH n2 x2 (by simp [hm])) (i + 1)
        (tinsert t n (toValue x))]
      rfl
    | none =>
      have hfield : emit_struct_field n i (encFieldBody none) ⟨t, .Start⟩ =
          (.ok (), ⟨t, .Start⟩) := rfl
      rw [encFields, encm_bind_apply, hfield]
      show encFields (i + 1) rest ⟨t, .Start⟩ = _
      rw [ih (fun n2 x2 hm => hIH n2 x2 (by simp [hm])) (i + 1) t]
      rfl

theorem encItems_run :
    ∀ (items : List Data),
      (∀ x ∈ items, ∀ e : Encoder, inValueCtx e.state →
        encodeData x e = emit_value (toValue x) e) →
      ∀ (i : Nat) (t : Table) (acc : List Value),
        encItems i items ⟨t, .NextArray acc⟩ =
          (.ok (), ⟨t, .NextArray (acc ++ toValueList items)⟩) := by
  intro items
  induction items with
  | nil =>
    intro _ i t acc
    simp [encItems, encm_pure_apply, toValueList]
  | cons x xs ih =>
    intro hIH i t acc
    have hx := hIH x (by simp) ⟨t, .NextArray acc⟩ (by simp [inValueCtx])
    have helt : emit_seq_elt i (encodeData x) ⟨t, .NextArray acc⟩ =
        (.ok (), ⟨t, .NextArray (acc ++ [toValue x])⟩) := by
      show encodeData x ⟨t, .NextArray acc⟩ = _
      rw [hx]
      rfl
    rw [encItems, encm_bind_apply, helt]
    show encItems (i + 1) xs ⟨t, .NextArray (acc ++ [toValue x])⟩ = _
    rw [ih (fun x2 hm => hIH x2 (by simp [hm])) (i + 1) t (acc ++ [toValue x])]
    simp [toValueList]

theorem encEntries_run :
    ∀ (entries : List (Str × Data)),
      (∀ p ∈ entries, ∀ e : Encoder, inValueCtx e.state →
        encodeData p.2 e = emit_value (toValue p.2) e) →
      ∀ (i : Nat) (t : Table),
        encEntries i entries ⟨t, .Start⟩ =
          (.ok (), ⟨tinsertAll t (toValueEntries entries), .Start⟩) := by
  intro entries
  induction entries with
  | nil =>
    intro _ i t
    simp [encEntries, tinsertAll, encm_pure_apply, toValueEntries]
  | cons p rest ih =>
    intro hIH i t
    obtain ⟨k, v⟩ := p
    have hkey : emit_map_elt_key i (emit_str k) ⟨t, .Start⟩ =
        (.ok (), ⟨t, .NextKey k⟩) := rfl
    have hv := hIH (k, v) (by simp) ⟨t, .NextKey k⟩ (by simp [inValueCtx])
    have hval : emit_map_elt_val i (encodeData v) ⟨t, .NextKey k⟩ =
        (.ok (), ⟨tinsert t k (toValue v), .Start⟩) := by
      show encodeData v ⟨t, .NextKey k⟩ = _
      rw [hv]
      rfl
    rw [encEntries, encm_bind_apply, hkey]
    show (emit_map_elt_val i (encodeData v) >>= fun _ =>
      encEntries (i + 1) rest) ⟨t, .NextKey k⟩ = _
    rw [encm_bind_apply, hval]
    show encEntries (i + 1) rest ⟨tinsert t k (toValue v), .Start⟩ = _
    rw [ih (fun p2 hm => hIH p2 (by simp [hm])) (i + 1) (tinsert t k (toValue v))]
    rfl

theorem encodeData_emits :
    ∀ (N : Nat) (v : Data) (s : Shape), sizeOf v < N → Fits v s →
      ∀ e : Encoder, inValueCtx e.state →
        encodeData v e = emit_value (toValue v) e := by
  intro N
  induction N with
  | zero => intro v s h; omega
  | succ n ihN =>
    intro v s hsz hf e hctx
    cases v with
    | dInt i =>
      cases s <;> simp only [Fits] at hf
      simp [encodeData, emit_i64, toValue]
    | dBool b =>
      cases s <;> simp only [Fits] at hf
      simp [encodeData, emit_bool, toValue]
    | dStr str =>
      cases s <;> simp only [Fits] at hf
      simp [encodeData, emit_str, toValue]
    | dSeq items =>
      cases s with
      | sSeq elem =>
        simp only [Fits] at hf
        obtain ⟨t, st⟩ := e
        have hIH : ∀ x ∈ items, ∀ e2 : Encoder, inValueCtx e2.state →
            encodeData x e2 = emit_value (toValue x) e2 := by
          intro x hx e2 hctx2
          have h1 := List.sizeOf_lt_of_mem hx
          have h2 : sizeOf (Data.dSeq items) < n + 1 := hsz
          refine ihN x elem (by simp at h2; omega)
            (FitsList_mem items elem x hf hx) e2 hctx2
        have hrun := encItems_run items hIH 0 t []
        rw [encodeData]
        simp only [emit_seq, hrun]
        simp [toValue]
      | _ => simp only [Fits] at hf
    | dRecord dfs =>
      cases s with
      | sRecord sfs =>
        simp only [Fits] at hf
        obtain ⟨hnames, hdist, hff⟩ := hf
        obtain ⟨t, st⟩ := e
        have hIH : ∀ n2 x, (n2, some x) ∈ dfs → ∀ e2 : Encoder,
            inValueCtx e2.state → encodeData x e2 = emit_value (toValue x) e2 := by
          intro n2 x hx e2 hctx2
          obtain ⟨s2, hfs2⟩ := FitsFields_mem_present dfs sfs n2 x hff hx
          have h1 := List.sizeOf_lt_of_mem hx
          have h2 : sizeOf (Data.dRecord dfs) < n + 1 := hsz
          refine ihN x s2 ?_ hfs2 e2 hctx2
          simp at h1 h2
          omega
        have hnested := encFields_run dfs hIH 0 []
        rw [tinsertAll_nil_of_pairwise _
          (toValueFields_keys_pairwise dfs sfs hff hdist)] at hnested
        rw [encodeData]
        cases st with
        | Start => exact absurd hctx (by simp [inValueCtx])
        | NextMapKey => exact absurd hctx (by simp [inValueCtx])
        | NextKey k =>
          simp only [emit_struct, Encoder.new, hnested]
          simp [toValue, emit_value]
        | NextArray acc =>
          simp only [emit_struct, Encoder.new, hnested]
          simp [toValue, emit_value]
      | _ => simp only [Fits] at hf
    | dMap entries =>
      cases s with
      | sMap elem =>
        simp only [Fits] at hf
        obtain ⟨hdk, hfe⟩ := hf
        obtain ⟨t, st⟩ := e
        have hIH : ∀ p ∈ entries, ∀ e2 : Encoder, inValueCtx e2.state →
            encodeData p.2 e2 = emit_value (toValue p.2) e2 := by
          intro p hp e2 hctx2
          have h1 := List.sizeOf_lt_of_mem hp
          have h2 : sizeOf (Data.dMap entries) < n + 1 := hsz
          refine ihN p.2 elem ?_ (FitsEntries_mem entries elem p hfe hp) e2 hctx2
          obtain ⟨k2, v2⟩ := p
          simp at h1 h2 ⊢
          omega
        have hnested := encEntries_run entries hIH 0 []
        have hpw : (toValueEntries entries).Pairwise (fun a b => a.1 ≠ b.1) := by
          have h1 : ((toValueEntries entries).map Prod.fst).Pairwise
              (fun a b => a ≠ b) := by
            rw [toValueEntries_map_fst]
            exact List.pairwise_map.mpr hdk
          exact List.pairwise_map.mp h1
        rw [tinsertAll_nil_of_pairwise _ hpw] at hnested
        rw [encodeData]
        cases st with
        | Start => exact absurd hctx (by simp [inValueCtx])
        | NextMapKey => exact absurd hctx (by simp [inValueCtx])
        | NextKey k =>
          simp only [emit_map, emit_struct, Encoder.new, hnested]
          simp [toValue, emit_value]
        | NextArray acc =>
          simp only [emit_map, emit_struct, Encoder.new, hnested]
          simp [toValue, emit_value]
      | _ => simp only [Fits] at hf
    | dUnion tag p =>
      cases s with
      | sUnion variants =>
        simp only [Fits] at hf
        obtain ⟨hAt, _⟩ := hf
        obtain ⟨sh, hget, hfp⟩ := FitsAt_elim variants tag p hAt
        rw [encodeData]
        show encodeData p e = _
        have h2 : sizeOf (Data.dUnion tag p) < n + 1 := hsz
        rw [ihN p sh (by simp at h2; omega) hfp e hctx]
        simp [toValue]
      | _ => simp only [Fits] at hf

/- #### Decoder correctness on adapter-constructible values -/

theorem read_struct_field_present {α : Type} (n : Str) (i : Nat) (w : Value)
    (T2 : Table) (cf : Option String) (body : DecM α) (r : α)
    (hbody : ∀ cf2, body ⟨some w, cf2⟩ = (.ok r, ⟨none, cf2⟩)) :
    read_struct_field n i body ⟨some (.Table ((n, w) :: T2)), cf⟩ =
      (.ok r, ⟨some (.Table T2), cf⟩) := by
  have hb2 : body ((⟨some (.Table ((n, w) :: T2)), cf⟩ : Decoder).sub_decoder (some w) n) =
      (.ok r, ⟨none,
        ((⟨some (.Table ((n, w) :: T2)), cf⟩ : Decoder).sub_decoder (some w) n).cur_field⟩) :=
    hbody _
  simp only [read_struct_field, tpop_hit_head, hb2]

theorem read_struct_field_absent {α : Type} (n : Str) (i : Nat) (T2 : Table)
    (cf : Option String) (body : DecM α) (r : α)
    (hmiss1 : tfind T2 n = none) (hmiss2 : tfind T2 (hyphenate n) = none)
    (hbody : ∀ cf2, body ⟨none, cf2⟩ = (.ok r, ⟨none, cf2⟩)) :
    read_struct_field n i body ⟨some (.Table T2), cf⟩ =
      (.ok r, ⟨some (.Table T2), cf⟩) := by
  have hb2 : body ((⟨some (.Table T2), cf⟩ : Decoder).sub_decoder none n) =
      (.ok r, ⟨none,
        ((⟨some (.Table T2), cf⟩ : Decoder).sub_decoder none n).cur_field⟩) :=
    hbody _
  simp only [read_struct_field, tpop_miss T2 n hmiss1,
    tpop_miss T2 (hyphenate n) hmiss2, hb2]

theorem read_seq_elt_consume {α : Type} (w : Value) (pre post : List Value)
    (cf : Option String) (body : DecM α) (r : α)
    (hbody : ∀ cf2, body ⟨some w, cf2⟩ = (.ok r, ⟨none, cf2⟩)) :
    read_seq_elt pre.length body ⟨some (.Array (pre ++ w :: post)), cf⟩ =
      (.ok r, ⟨some (.Array (pre ++ Value.Integer 0 :: post)), cf⟩) := by
  have hb2 : body ((⟨some (.Array (pre ++ w :: post)), cf⟩ : Decoder).sub_decoder
        (some ((pre ++ w :: post).getD pre.length (.Integer 0))) "") =
      (.ok r, ⟨none, cf⟩) := by
    rw [getD_at_append_length]
    exact hbody cf
  simp only [read_seq_elt, hb2, set_at_append_length]

theorem decArm_eq :
    ∀ (variants : List Shape) (j : Nat) (s : Shape) (tag : Nat),
      variants[j]? = some s →
      decArm variants tag j = (do
        let p ← read_enum_variant_arg 0 (decodeShape s)
        pure (.dUnion tag p)) := by
  intro variants
  induction variants with
  | nil => intro j s tag h; simp at h
  | cons v rest ih =>
    intro j s tag h
    cases j with
    | zero =>
      simp at h
      subst h
      rw [decArm]
    | succ jj =>
      simp at h
      rw [decArm]
      exact ih jj s tag (by simpa using h)

theorem decFieldBody_present (opt : Bool) (s : Shape) (x : Data)
    (hdec : ∀ cf2, decodeShape s ⟨some (toValue x), cf2⟩ =
      (.ok x, ⟨none, cf2⟩)) :
    ∀ cf2, decFieldBody opt s ⟨some (toValue x), cf2⟩ =
      (.ok (some x), ⟨none, cf2⟩) := by
  intro cf2
  cases opt with
  | false =>
    rw [decFieldBody, decm_bind_apply, hdec cf2]
    rfl
  | true =>
    rw [decFieldBody]
    show ((do
      let x2 ← decodeShape s
      pure (some x2) : DecM (Option Data))) ⟨some (toValue x), cf2⟩ = _
    rw [decm_bind_apply, hdec cf2]
    rfl

theorem decFieldBody_absent (s : Shape) :
    ∀ cf2, decFieldBody true s ⟨none, cf2⟩ = (.ok none, ⟨none, cf2⟩) := by
  intro cf2
  rw [decFieldBody]
  rfl

theorem decFields_run :
    ∀ (sfs : List (Str × Bool × Shape)) (dfs : List (Str × Option Data))
      (cf : Option String) (i : Nat),
      FitsFields dfs sfs →
      (∀ p ∈ sfs, '-' ∉ p.1.data) →
      sfs.Pairwise (fun a b => a.1 ≠ b.1) →
      (∀ n x s2, (n, some x) ∈ dfs → Fits x s2 →
        ∀ cf2, decodeShape s2 ⟨some (toValue x), cf2⟩ = (.ok x, ⟨none, cf2⟩)) →
      decFields sfs i ⟨some (.Table (toValueFields dfs)), cf⟩ =
        (.ok dfs, ⟨some (.Table []), cf⟩) := by
  intro sfs
  induction sfs with
  | nil =>
    intro dfs cf i hff _ _ _
    cases dfs with
    | nil => simp [decFields, toValueFields, decm_pure_apply]
    | cons p dr =>
      obtain ⟨nn, ov⟩ := p
      cases ov <;> simp [FitsFields] at hff
  | cons q sr ih =>
    intro dfs cf i hff hnames hdist hIH
    obtain ⟨m, opt, s⟩ := q
    cases dfs with
    | nil => simp [FitsFields] at hff
    | cons p dr =>
      obtain ⟨nn, ov⟩ := p
      cases ov with
      | some x =>
        rw [FitsFields] at hff
        obtain ⟨hnm, hfx, hrest⟩ := hff
        subst hnm
        have hdec : ∀ cf2, decodeShape s ⟨some (toValue x), cf2⟩ =
            (.ok x, ⟨none, cf2⟩) := fun cf2 => hIH nn x s (by simp) hfx cf2
        have hfield := read_struct_field_present nn i (toValue x)
          (toValueFields dr) cf (decFieldBody opt s) (some x)
          (decFieldBody_present opt s x hdec)
        rw [show toValueFields ((nn, some x) :: dr) =
          (nn, toValue x) :: toValueFields dr from rfl]
        rw [decFields, decm_bind_apply, hfield]
        show (decFields sr (i + 1) >>= fun vs =>
          pure ((nn, some x) :: vs)) ⟨some (.Table (toValueFields dr)), cf⟩ = _
        rw [decm_bind_apply, ih dr cf (i + 1) hrest
          (fun p hp => hnames p (by simp [hp]))
          (List.pairwise_cons.mp hdist).2
          (fun n2 x2 s2 hm hfits => hIH n2 x2 s2 (by simp [hm]) hfits)]
        rfl
      | none =>
        rw [FitsFields] at hff
        obtain ⟨hnm, hopt, hrest⟩ := hff
        subst hnm
        subst hopt
        have hd1 := (List.pairwise_cons.mp hdist).1
        have hm1 : tfind (toValueFields dr) nn = none := by
          refine tfind_toValueFields_none dr nn ?_
          intro k hk
          rw [FitsFields_names dr sr hrest] at hk
          obtain ⟨p, hp, hpe⟩ := List.mem_map.mp hk
          intro hEq
          exact hd1 p hp (by rw [hpe, hEq])
        have hm2 : tfind (toValueFields dr) (hyphenate nn) = none := by
          rcases hyphenate_cases nn with hcase | hcase
          · rw [hcase]; exact hm1
          · exact tfind_none_of_hyphen_key _ _ hcase
              (toValueFields_keys_hyphen_free dr sr hrest
                (fun p hp => hnames p (by simp [hp])))
        have hfield := read_struct_field_absent nn i (toValueFields dr) cf
          (decFieldBody true s) none hm1 hm2 (decFieldBody_absent s)
        rw [show toValueFields ((nn, none) :: dr) = toValueFields dr from rfl]
        rw [decFields, decm_bind_apply, hfield]
        show (decFields sr (i + 1) >>= fun vs =>
          pure ((nn, none) :: vs)) ⟨some (.Table (toValueFields dr)), cf⟩ = _
        rw [decm_bind_apply, ih dr cf (i + 1) hrest
          (fun p hp => hnames p (by simp [hp]))
          (List.pairwise_cons.mp hdist).2
          (fun n2 x2 s2 hm hfits => hIH n2 x2 s2 (by simp [hm]) hfits)]
        rfl

theorem decSeqItems_run (elem : Shape) :
    ∀ (items : List Data) (k : Nat) (cf : Option String),
      (∀ x ∈ items, ∀ cf2, decodeShape elem ⟨some (toValue x), cf2⟩ =
        (.ok x, ⟨none, cf2⟩)) →
      decSeqItems elem k items.length
        ⟨some (.Array (List.replicate k (.Integer 0) ++ toValueList items)), cf⟩ =
        (.ok items,
          ⟨some (.Array (List.replicate (k + items.length) (.Integer 0))), cf⟩) := by
  intro items
  induction items with
  | nil =>
    intro k cf _
    simp [decSeqItems, decm_pure_apply, toValueList]
  | cons x xs ih =>
    intro k cf hIH
    rw [show toValueList (x :: xs) = toValue x :: toValueList xs from rfl,
      List.length_cons]
    rw [decSeqItems]
    have hfield := read_seq_elt_consume (toValue x)
      (List.replicate k (.Integer 0)) (toValueList xs) cf (decodeShape elem) x
      (hIH x (by simp))
    rw [List.length_replicate] at hfield
    rw [decm_bind_apply, hfield]
    have harr : List.replicate k (Value.Integer 0) ++
        Value.Integer 0 :: toValueList xs =
        List.replicate (k + 1) (Value.Integer 0) ++ toValueList xs := by
      rw [show k + 1 = k + 1 from rfl, List.replicate_succ']
      simp
    rw [harr]
    show (decSeqItems elem (k + 1) xs.length >>= fun rest =>
      pure (x :: rest))
      ⟨some (.Array (List.replicate (k + 1) (.Integer 0) ++ toValueList xs)), cf⟩ = _
    rw [decm_bind_apply, ih (k + 1) cf (fun x2 hm => hIH x2 (by simp [hm]))]
    rw [show k + 1 + xs.length = k + (xs.length + 1) by omega]
    rfl

theorem decMapItems_run (elem : Shape) :
    ∀ (suffix done : List (Str × Data)) (cf : Option String),
      (∀ p ∈ suffix, ∀ cf2, decodeShape elem ⟨some (toValue p.2), cf2⟩ =
        (.ok p.2, ⟨none, cf2⟩)) →
      decMapItems elem done.length suffix.length
        ⟨some (.Table (toValueEntries (done ++ suffix))), cf⟩ =
        (.ok suffix, ⟨some (.Table (toValueEntries (done ++ suffix))), cf⟩) := by
  intro suffix
  induction suffix with
  | nil =>
    intro done cf _
    simp [decMapItems, decm_pure_apply]
  | cons p tail ih =>
    intro done cf hIH
    obtain ⟨key, v⟩ := p
    rw [List.length_cons, decMapItems]
    have hkeys : ((toValueEntries (done ++ (key, v) :: tail)).map
        Prod.fst)[done.length]? = some key := by
      rw [toValueEntries_map_fst]
      have h := getElem?_at_append_length (done.map Prod.fst) key
        (tail.map Prod.fst)
      rw [List.length_map] at h
      rw [show (done ++ (key, v) :: tail).map Prod.fst =
        done.map Prod.fst ++ key :: tail.map Prod.fst by simp]
      exact h
    have hvals : ((toValueEntries (done ++ (key, v) :: tail)).map
        Prod.snd)[done.length]? = some (toValue v) := by
      rw [toValueEntries_map_snd]
      have h := getElem?_at_append_length
        (done.map (fun p2 => toValue p2.2)) (toValue v)
        (tail.map (fun p2 => toValue p2.2))
      rw [List.length_map] at h
      rw [show (done ++ (key, v) :: tail).map (fun p2 => toValue p2.2) =
        done.map (fun p2 => toValue p2.2) ++
          toValue v :: tail.map (fun p2 => toValue p2.2) by simp]
      exact h
    have hkey : read_map_elt_key done.length read_str
        ⟨some (.Table (toValueEntries (done ++ (key, v) :: tail))), cf⟩ =
        (.ok key,
          ⟨some (.Table (toValueEntries (done ++ (key, v) :: tail))), cf⟩) := by
      simp only [read_map_elt_key, hkeys]
      rfl
    have hdecv := hIH (key, v) (by simp)
    have hval : read_map_elt_val done.length (decodeShape elem)
        ⟨some (.Table (toValueEntries (done ++ (key, v) :: tail))), cf⟩ =
        (.ok v,
          ⟨some (.Table (toValueEntries (done ++ (key, v) :: tail))), cf⟩) := by
      have hsub : decodeShape elem
          ((⟨some (.Table (toValueEntries (done ++ (key, v) :: tail))), cf⟩ :
            Decoder).sub_decoder (some (toValue v)) "") =
          (.ok v, ⟨none, cf⟩) := hdecv cf
      simp only [read_map_elt_val, hvals, hsub]
    rw [decm_bind_apply, hkey]
    show (read_map_elt_val done.length (decodeShape elem) >>= fun v2 =>
      decMapItems elem (done.length + 1) tail.length >>= fun rest =>
      pure ((key, v2) :: rest))
      ⟨some (.Table (toValueEntries (done ++ (key, v) :: tail))), cf⟩ = _
    rw [decm_bind_apply, hval]
    have hrec := ih (done ++ [(key, v)]) cf
      (fun p2 hm => hIH p2 (by simp [hm]))
    rw [List.length_append, List.length_cons, List.length_nil] at hrec
    rw [show (done ++ [(key, v)]) ++ tail = done ++ (key, v) :: tail by simp]
      at hrec
    show (decMapItems elem (done.length + 1) tail.length >>= fun rest =>
      pure ((key, v) :: rest))
      ⟨some (.Table (toValueEntries (done ++ (key, v) :: tail))), cf⟩ = _
    rw [decm_bind_apply, hrec]
    rfl

theorem decode_toValue :
    ∀ (N : Nat) (v : Data) (s : Shape), sizeOf v < N → Fits v s →
      ∀ cf, decodeShape s ⟨some (toValue v), cf⟩ = (.ok v, ⟨none, cf⟩) := by
  intro N
  induction N with
  | zero => intro v s h; omega
  | succ n ihN =>
    intro v s hsz hf cf
    cases v with
    | dInt i =>
      cases s <;> simp only [Fits] at hf
      simp [decodeShape, toValue, read_i64, decm_bind_apply, decm_pure_apply]
    | dBool b =>
      cases s <;> simp only [Fits] at hf
      simp [decodeShape, toValue, read_bool, decm_bind_apply, decm_pure_apply]
    | dStr str =>
      cases s <;> simp only [Fits] at hf
      simp [decodeShape, toValue, read_str, decm_bind_apply, decm_pure_apply]
    | dSeq items =>
      cases s with
      | sSeq elem =>
        simp only [Fits] at hf
        have hIH : ∀ x ∈ items, ∀ cf2,
            decodeShape elem ⟨some (toValue x), cf2⟩ = (.ok x, ⟨none, cf2⟩) := by
          intro x hx cf2
          have h1 := List.sizeOf_lt_of_mem hx
          have h2 : sizeOf (Data.dSeq items) < n + 1 := hsz
          refine ihN x elem ?_ (FitsList_mem items elem x hf hx) cf2
          simp at h2
          omega
        have hrun := decSeqItems_run elem items 0 cf hIH
        simp only [List.replicate, List.nil_append, Nat.zero_add] at hrun
        rw [show toValue (Data.dSeq items) = .Array (toValueList items) from rfl]
        rw [decodeShape, decm_bind_apply]
        have hrs : read_seq (fun len => decSeqItems elem 0 len)
            ⟨some (.Array (toValueList items)), cf⟩ = (.ok items, ⟨none, cf⟩) := by
          simp only [read_seq, toValueList_length, hrun, filter_sentinel]
          simp
        rw [hrs]
        rfl
      | _ => simp only [Fits] at hf
    | dRecord dfs =>
      cases s with
      | sRecord sfs =>
        simp only [Fits] at hf
        obtain ⟨hnames, hdist, hff⟩ := hf
        have hIH : ∀ n2 x s2, (n2, some x) ∈ dfs → Fits x s2 → ∀ cf2,
            decodeShape s2 ⟨some (toValue x), cf2⟩ = (.ok x, ⟨none, cf2⟩) := by
          intro n2 x s2 hm hfx cf2
          have h1 := List.sizeOf_lt_of_mem hm
          have h2 : sizeOf (Data.dRecord dfs) < n + 1 := hsz
          refine ihN x s2 ?_ hfx cf2
          simp at h1 h2
          omega
        have hfr := decFields_run sfs dfs cf 0 hff hnames hdist hIH
        rw [show toValue (Data.dRecord dfs) = .Table (toValueFields dfs) from rfl]
        rw [decodeShape, decm_bind_apply]
        have hrs : read_struct "" sfs.length (decFields sfs 0)
            ⟨some (.Table (toValueFields dfs)), cf⟩ = (.ok dfs, ⟨none, cf⟩) := by
          simp only [read_struct, hfr]
          rfl
        rw [hrs]
        rfl
      | _ => simp only [Fits] at hf
    | dMap entries =>
      cases s with
      | sMap elem =>
        simp only [Fits] at hf
        obtain ⟨hdk, hfe⟩ := hf
        have hIH : ∀ p ∈ entries, ∀ cf2,
            decodeShape elem ⟨some (toValue p.2), cf2⟩ = (.ok p.2, ⟨none, cf2⟩) := by
          intro p hp cf2
          have h1 := List.sizeOf_lt_of_mem hp
          have h2 : sizeOf (Data.dMap entries) < n + 1 := hsz
          refine ihN p.2 elem ?_ (FitsEntries_mem entries elem p hfe hp) cf2
          obtain ⟨k2, v2⟩ := p
          simp at h1 h2 ⊢
          omega
        have hfm := decMapItems_run elem entries [] cf hIH
        simp only [List.nil_append, List.length_nil] at hfm
        rw [show toValue (Data.dMap entries) = .Table (toValueEntries entries) from rfl]
        rw [decodeShape, decm_bind_apply]
        have hrm : read_map (fun len => decMapItems elem 0 len)
            ⟨some (.Table (toValueEntries entries)), cf⟩ =
            (.ok entries, ⟨none, cf⟩) := by
          simp only [read_map, toValueEntries_length, hfm]
        rw [hrm]
        rfl
      | _ => simp only [Fits] at hf
    | dUnion tag p =>
      cases s with
      | sUnion variants =>
        simp only [Fits] at hf
        obtain ⟨hAt, hfail⟩ := hf
        obtain ⟨sh, hget, hfp⟩ := FitsAt_elim variants tag p hAt
        have htag : tag < variants.length := by
          by_contra hcon
          push_neg at hcon
          rw [List.getElem?_eq_none hcon] at hget
          exact absurd hget (by simp)
        have hdecp : decodeShape sh ⟨some (toValue p), cf⟩ =
            (.ok p, ⟨none, cf⟩) := by
          have h2 : sizeOf (Data.dUnion tag p) < n + 1 := hsz
          refine ihN p sh ?_ hfp cf
          simp at h2
          omega
        rw [show toValue (Data.dUnion tag p) = toValue p from rfl]
        rw [decodeShape]
        show read_enum_variant_loop (fun i => decArm variants i i) 0
          (variants.map (fun _ => "")).length none ⟨some (toValue p), cf⟩ = _
        rw [List.length_map]
        have hfails : ∀ j, j < tag →
            okB (((fun i => decArm variants i i) (0 + j)
              ((⟨some (toValue p), cf⟩ : Decoder).sub_decoder
                (⟨some (toValue p), cf⟩ : Decoder).toml "")).1) = false := by
          intro j hj
          rw [Nat.zero_add]
          obtain ⟨sj, hsj⟩ : ∃ sj, variants[j]? = some sj := by
            cases hv : variants[j]? with
            | some s2 => exact ⟨s2, rfl⟩
            | none =>
              have hle : variants.length ≤ j := by
                rwa [List.getElem?_eq_none_iff] at hv
              omega
          show okB ((decArm variants j j ⟨some (toValue p), cf⟩).1) = false
          rw [decArm_eq variants j sj j hsj]
          exact okB_bind_false _ _ _ (hfail j sj hj hsj cf)
        have hsucc : (fun i => decArm variants i i) (0 + tag)
            ((⟨some (toValue p), cf⟩ : Decoder).sub_decoder
              (⟨some (toValue p), cf⟩ : Decoder).toml "") =
            (.ok (.dUnion tag p), ⟨none, cf⟩) := by
          have hz : 0 + tag = tag := Nat.zero_add tag
          rw [hz]
          show decArm variants tag tag ⟨some (toValue p), cf⟩ = _
          rw [decArm_eq variants tag sh tag hget]
          show (decodeShape sh >>= fun p2 =>
            pure (Data.dUnion tag p2)) ⟨some (toValue p), cf⟩ = _
          rw [decm_bind_apply, hdecp]
          rfl
        exact read_enum_variant_loop_succeed (fun i => decArm variants i i)
          tag variants.length 0 none ⟨some (toValue p), cf⟩ (.dUnion tag p)
          ⟨none, cf⟩ htag hfails hsucc
      | _ => simp only [Fits] at hf

/-- `pub fn encode` expects the type to represent a TOML table: root
shapes are records and dynamic maps. -/
def isRoot : Shape → Prop
  | .sRecord _ => True
  | .sMap _ => True
  | _ => False

/-- C1 amended: for every adapter-constructible value `v` over the
supported shapes whose tagged-union values additionally satisfy the
first-match condition (each variant listed before the value's own variant
fails to decode the value's encoded payload — the condition `Fits`
imposes), encoding `v` succeeds with its value image and decoding that
image returns exactly `v` with nothing left over. -/
theorem roundtrip_amended (v : Data) (s : Shape) (hf : Fits v s)
    (hr : isRoot s) :
    encode v = some (toValue v) ∧ decode s (toValue v) = some v := by
  constructor
  · cases s with
    | sRecord sfs =>
      cases v with
      | dRecord dfs =>
        simp only [Fits] at hf
        obtain ⟨hnames, hdist, hff⟩ := hf
        have hIH : ∀ n2 x, (n2, some x) ∈ dfs → ∀ e2 : Encoder,
            inValueCtx e2.state → encodeData x e2 = emit_value (toValue x) e2 := by
          intro n2 x hm e2 hctx2
          obtain ⟨s2, hfs2⟩ := FitsFields_mem_present dfs sfs n2 x hff hm
          exact encodeData_emits (sizeOf x + 1) x s2 (by omega) hfs2 e2 hctx2
        have hnested := encFields_run dfs hIH 0 []
        rw [tinsertAll_nil_of_pairwise _
          (toValueFields_keys_pairwise dfs sfs hff hdist)] at hnested
        have hrun : encodeData (Data.dRecord dfs) Encoder.new =
            (.ok (), ⟨toValueFields dfs, .Start⟩) := by
          rw [encodeData]
          simp only [emit_struct, Encoder.new]
          exact hnested
        rw [show toValue (Data.dRecord dfs) = .Table (toValueFields dfs) from rfl]
        simp only [encode, hrun]
      | dInt i => simp only [Fits] at hf
      | dBool b => simp only [Fits] at hf
      | dStr str => simp only [Fits] at hf
      | dSeq items => simp only [Fits] at hf
      | dMap entries => simp only [Fits] at hf
      | dUnion tag p => simp only [Fits] at hf
    | sMap elem =>
      cases v with
      | dMap entries =>
        simp only [Fits] at hf
        obtain ⟨hdk, hfe⟩ := hf
        have hIH : ∀ p ∈ entries, ∀ e2 : Encoder, inValueCtx e2.state →
            encodeData p.2 e2 = emit_value (toValue p.2) e2 := by
          intro p hp e2 hctx2
          exact encodeData_emits (sizeOf p.2 + 1) p.2 elem (by omega)
            (FitsEntries_mem entries elem p hfe hp) e2 hctx2
        have hnested := encEntries_run entries hIH 0 []
        have hpw : (toValueEntries entries).Pairwise (fun a b => a.1 ≠ b.1) := by
          have h1 : ((toValueEntries entries).map Prod.fst).Pairwise
              (fun a b => a ≠ b) := by
            rw [toValueEntries_map_fst]
            exact List.pairwise_map.mpr hdk
          exact List.pairwise_map.mp h1
        rw [tinsertAll_nil_of_pairwise _ hpw] at hnested
        have hrun : encodeData (Data.dMap entries) Encoder.new =
            (.ok (), ⟨toValueEntries entries, .Start⟩) := by
          rw [encodeData]
          simp only [emit_map, emit_struct, Encoder.new]
          exact hnested
        rw [show toValue (Data.dMap entries) = .Table (toValueEntries entries)
          from rfl]
        simp only [encode, hrun]
      | dInt i => simp only [Fits] at hf
      | dBool b => simp only [Fits] at hf
      | dStr str => simp only [Fits] at hf
      | dSeq items => simp only [Fits] at hf
      | dRecord dfs => simp only [Fits] at hf
      | dUnion tag p => simp only [Fits] at hf
    | sInt => simp [isRoot] at hr
    | sBool => simp [isRoot] at hr
    | sStr => simp [isRoot] at hr
    | sSeq elem => simp [isRoot] at hr
    | sUnion variants => simp [isRoot] at hr
  · have h := decode_toValue (sizeOf v + 1) v s (by omega) hf none
    simp only [decode, Decoder.new, h]

/-- Closed instance of `roundtrip_amended`: a record with an integer
field, an absent optional field, a sequence containing a zero, a dynamic
map, and a tagged union whose value is the *second* variant (the first
variant, a boolean, fails on the encoded integer payload) round-trips
exactly. -/
theorem roundtrip_amended_witness :
    Fits
      (.dRecord [("a", some (.dInt 2)), ("b", none),
        ("c", some (.dSeq [.dInt 0, .dInt 3])),
        ("m", some (.dMap [("k", .dBool true)])),
        ("u", some (.dUnion 1 (.dInt 5)))])
      (.sRecord [("a", false, .sInt), ("b", true, .sStr),
        ("c", false, .sSeq .sInt), ("m", false, .sMap .sBool),
        ("u", false, .sUnion [.sBool, .sInt])]) ∧
    isRoot (.sRecord [("a", false, .sInt), ("b", true, .sStr),
      ("c", false, .sSeq .sInt), ("m", false, .sMap .sBool),
      ("u", false, .sUnion [.sBool, .sInt])]) ∧
    (encode
        (.dRecord [("a", some (.dInt 2)), ("b", none),
          ("c", some (.dSeq [.dInt 0, .dInt 3])),
          ("m", some (.dMap [("k", .dBool true)])),
          ("u", some (.dUnion 1 (.dInt 5)))]) =
      some (toValue
        (.dRecord [("a", some (.dInt 2)), ("b", none),
          ("c", some (.dSeq [.dInt 0, .dInt 3])),
          ("m", some (.dMap [("k", .dBool true)])),
          ("u", some (.dUnion 1 (.dInt 5)))])) ∧
    decode
        (.sRecord [("a", false, .sInt), ("b", true, .sStr),
          ("c", false, .sSeq .sInt), ("m", false, .sMap .sBool),
          ("u", false, .sUnion [.sBool, .sInt])])
        (toValue
          (.dRecord [("a", some (.dInt 2)), ("b", none),
            ("c", some (.dSeq [.dInt 0, .dInt 3])),
            ("m", some (.dMap [("k", .dBool true)])),
            ("u", some (.dUnion 1 (.dInt 5)))])) =
      some
        (.dRecord [("a", some (.dInt 2)), ("b", none),
          ("c", some (.dSeq [.dInt 0, .dInt 3])),
          ("m", some (.dMap [("k", .dBool true)])),
          ("u", some (.dUnion 1 (.dInt 5)))])) := by
  have hFits : Fits
      (.dRecord [("a", some (.dInt 2)), ("b", none),
        ("c", some (.dSeq [.dInt 0, .dInt 3])),
        ("m", some (.dMap [("k", .dBool true)])),
        ("u", some (.dUnion 1 (.dInt 5)))])
      (.sRecord [("a", false, .sInt), ("b", true, .sStr),
        ("c", false, .sSeq .sInt), ("m", false, .sMap .sBool),
        ("u", false, .sUnion [.sBool, .sInt])]) := by
    simp only [Fits, FitsFields, FitsList, FitsEntries, FitsAt]
    repeat' apply And.intro
    all_goals
      first
        | rfl
        | trivial
        | decide
        | (intro j sj hj hget cf
           have hj0 : j = 0 := by omega
           subst hj0
           simp at hget
           subst hget
           simp [decodeShape, toValue, read_bool, decm_bind_apply, okB,
             Decoder.mismatch, Decoder.err])
  exact ⟨hFits, trivial, roundtrip_amended _ _ hFits trivial⟩

end Toml
